import Mathlib

/-!
Verification of the peloton-opt storage engine and optimizer binding iterator.

This file gives a shallow embedding, in Lean 4, of the parts of the
repository that the testable properties talk about:

* the `DataTable` insertion path (`src/backend/storage/data_table.cpp`:
  `GetTupleSlot`, `InsertTuple`, `AddDefaultTileGroup`),
* the per-tile-group layout transformation (`TransformTileGroup`,
  `SetTransformedTileGroup`),
* the optimizer row sampler (`SampleRows`),
* the optimizer binding iterators (`src/backend/optimizer/binding.cpp`:
  `GroupBindingIterator`, `ItemBindingIterator`).

Machine integers are modelled as `Nat` (none of the verified properties
exercises overflow), mutation as explicit state passing, and the few
unbounded `while` loops as fuelled recursion; the theorems quantify over
sufficient fuel and exhibit concrete fuel in their witnesses.
-/

namespace Peloton

namespace Storage

/-! ### The insertion path of `DataTable`

For the tuple-count bookkeeping claims only the per-tile-group `next_slot`
counters, the order of the tile groups and `tuple_count_exact` matter, so a
table is modelled by exactly those.  All theorems below are single-threaded
runs, which is the setting of the claims. -/

/-- The `next_slot` counters of the table's tile groups (in `tile_groups`
order) together with `tuple_count_exact` (`data_table.h` members,
manipulated by `data_table.cpp`). -/
structure TableIns where
  tile_groups : List Nat
  tuple_count_exact : Nat
deriving Repr, DecidableEq

/-- `TileGroup::InsertTuple` viewed through its effect on `next_slot`.
Modelled from the spec: `tile_group.cpp` is not part of the sources; the
spec (§4.2, §4.3) specifies `claim_next_slot()` as an atomic
fetch-and-increment of `next_slot` that fails exactly when
`next_slot = capacity`, and `insert_tuple` returns `None` iff the claim
fails.  Returns the claimed slot and the new counter. -/
def tileGroupInsertTuple (capacity next_slot : Nat) : Option (Nat × Nat) :=
  if next_slot < capacity then some (next_slot, next_slot + 1) else none

/-- `DataTable::AddDefaultTileGroup` (data_table.cpp:532) restricted to the
state of `tile_groups`: (A) if the table has no tile groups, append a fresh
one; (B) if the last tile group still has a free slot
(`active_tuple_count < allocated_tuple_count`), do nothing (the C++ returns
`INVALID_OID`); otherwise append a fresh tile group with `next_slot = 0`. -/
def addDefaultTileGroup (c : Nat) (t : TableIns) : TableIns :=
  match t.tile_groups.getLast? with
  | none => { t with tile_groups := t.tile_groups ++ [0] }
  | some last =>
    if last < c then t
    else { t with tile_groups := t.tile_groups ++ [0] }

/-- `DataTable::GetTupleSlot` (data_table.cpp:156): loop until a slot is
claimed; read the last tile group, try to claim a slot in it, and if it is
full call `AddDefaultTileGroup` and retry.  The C++ `while` loop is fuelled;
in a single-threaded run fuel `2` always suffices (see
`getTupleSlot_t_succeeds`).  Returns the updated table and the claimed
slot. -/
def getTupleSlot (c : Nat) : Nat → TableIns → Option (TableIns × Nat)
  | 0, _ => none
  | fuel + 1, t =>
    let off := t.tile_groups.length - 1
    match tileGroupInsertTuple c (t.tile_groups.getD off 0) with
    | some (slot, ns) =>
      some ({ t with tile_groups := t.tile_groups.set off ns }, slot)
    | none => getTupleSlot c fuel (addDefaultTileGroup c t)

/-- `DataTable::InsertTuple` (data_table.cpp:245): claim a slot via
`GetTupleSlot`, then (indexes accepted the key: `InsertInIndexes` always
returns `true` in the source) increment `tuple_count_exact`. -/
def insertTuple (c fuel : Nat) (t : TableIns) : Option (TableIns × Nat) :=
  match getTupleSlot c fuel t with
  | none => none
  | some (t2, slot) =>
    some ({ t2 with tuple_count_exact := t2.tuple_count_exact + 1 }, slot)

/-- A fresh table: the `DataTable` constructor (data_table.cpp:54) starts
with no tile groups and calls `AddDefaultTileGroup()` once. -/
def freshTable (c : Nat) : TableIns :=
  addDefaultTileGroup c { tile_groups := [], tuple_count_exact := 0 }

/-- `k` successive successful single-threaded `InsertTuple` calls. -/
def insertN (c : Nat) : Nat → TableIns → Option TableIns
  | 0, t => some t
  | k + 1, t =>
    match insertTuple c 2 t with
    | none => none
    | some (t2, _) => insertN c k t2

/-! ### Tile groups with data, and the layout transformation

`TransformTileGroup` / `SetTransformedTileGroup`
(data_table.cpp:812-888).  A tile group is its column map
(`column offset ↦ (tile offset, tile column offset)`, tile_group.h:203), its
allocated slot count, its cells (addressed tile-at-a-time, as
`Tile::GetValue`/`SetValue` address them) and its header.  Cell values are
an arbitrary type `α`. -/

/-- The per-tile-group MVCC header.  `SetTransformedTileGroup` copies the
whole header object (`*new_header = *header`, data_table.cpp:846); the claims
only ever look at its `next_slot`, so only that field is carried. -/
structure HeaderM where
  next_slot : Nat
deriving Repr, DecidableEq

/-- A tile group (tile_group.h:57): id, column map, allocated tuple count
(`num_tuple_slots`), cells and header.  `tiles t s c` is the value of tile
`t` at row `s`, tile-column `c`. -/
structure TileGroupM (α : Type) where
  tile_group_id : Nat
  column_map : List (Nat × Nat)
  capacity : Nat
  tiles : Nat → Nat → Nat → α
  header : HeaderM

/-- `TileGroup::LocateTileAndColumn`.  Modelled from the spec
(tile_group.cpp is not part of the sources): §4.3 specifies it as the
constant-time lookup of the column in `column_map`. -/
def locateTileAndColumn (tg : TileGroupM α) (col : Nat) : Nat × Nat :=
  tg.column_map.getD col (0, 0)

/-- Reading table column `col` at slot `s`: locate the tile and tile-column,
then read the cell (`TileGroup::GetValue`, modelled from the spec §4.2/§4.3:
typed `get(row, col)` through the column map). -/
def readValue (tg : TileGroupM α) (col s : Nat) : α :=
  let loc := locateTileAndColumn tg col
  tg.tiles loc.1 s loc.2

/-- `Tile::SetValue` on the functional cell store: point update of one cell. -/
def updateCell (f : Nat → Nat → Nat → α) (t r c : Nat) (v : α) :
    Nat → Nat → Nat → α :=
  fun t2 r2 c2 => if t2 = t ∧ r2 = r ∧ c2 = c then v else f t2 r2 c2

/-- `SetTransformedTileGroup` (data_table.cpp:812): for each table column,
locate it in the original and the new tile group and copy its cells row by
row for every allocated slot; finally copy the header wholesale. -/
def setTransformedTileGroup (orig ng : TileGroupM α) : TileGroupM α :=
  let column_count := ng.column_map.length
  let tuple_count := orig.capacity
  let tiles2 := (List.range column_count).foldl
    (fun acc col =>
      let oloc := locateTileAndColumn orig col
      let nloc := locateTileAndColumn ng col
      (List.range tuple_count).foldl
        (fun acc2 row => updateCell acc2 nloc.1 row nloc.2 (orig.tiles oloc.1 row oloc.2))
        acc)
    ng.tiles
  { ng with tiles := tiles2, header := orig.header }

/-- `TileGroup::GetSchemaDifference`.  Modelled from the spec
(tile_group.cpp is not part of the sources): §4.3 specifies it as the
fraction of columns whose `(tile, column-in-tile)` placement differs from
the target map.  The C++ `double` is idealized as an exact rational. -/
def schemaDifference (cm target : List (Nat × Nat)) : ℚ :=
  (((List.range cm.length).countP
      (fun c => cm.getD c (0, 0) ≠ target.getD c (0, 0)) : ℚ)) / (cm.length : ℚ)

/-- The table state that `TransformTileGroup` touches: the tile-group id
sequence, the catalog manager's id → tile group map (an association list
where `AddTileGroup` prepends, i.e. overwrites, and lookup takes the newest
entry), and `default_partition`. -/
structure TableTG (α : Type) where
  tile_groups : List Nat
  catalog : List (Nat × TileGroupM α)
  default_partition : List (Nat × Nat)

/-- `catalog::Manager::GetTileGroup`: lookup by tile group id. -/
def catalogGet (cat : List (Nat × TileGroupM α)) (id : Nat) :
    Option (TileGroupM α) :=
  match cat.find? (fun p => p.1 = id) with
  | some p => some p.2
  | none => none

/-- `catalog::Manager::AddTileGroup`: (re)bind `id`, atomically replacing
any previous binding. -/
def catalogAdd (cat : List (Nat × TileGroupM α)) (id : Nat)
    (tg : TileGroupM α) : List (Nat × TileGroupM α) :=
  (id, tg) :: cat

/-- The fresh tile group `TransformTileGroup` allocates before copying
(data_table.cpp:874-878): the *same* `tile_group_id`, the default
partition's column map, the same allocated tuple count, uninitialized
cells, a fresh header. -/
def newTileGroup [Inhabited α] (tg : TileGroupM α)
    (dp : List (Nat × Nat)) : TileGroupM α :=
  { tile_group_id := tg.tile_group_id
    column_map := dp
    capacity := tg.capacity
    tiles := fun _ _ _ => default
    header := { next_slot := 0 } }

/-- `DataTable::TransformTileGroup` (data_table.cpp:849): reject an
out-of-range offset; fetch the tile group from the catalog; compare its
schema difference from `default_partition` against `theta` and return null
below threshold; otherwise build a fresh tile group with the default
partition's column map, the same id and the same allocated count, copy
cells and header via `SetTransformedTileGroup`, and re-register it in the
catalog under the same id.  Returns the transformation result
(`nullptr` ↦ `none`) and the new table state. -/
def transformTileGroup [Inhabited α] (tbl : TableTG α) (offset : Nat)
    (theta : ℚ) : Option (TileGroupM α) × TableTG α :=
  if offset < tbl.tile_groups.length then
    let id := tbl.tile_groups.getD offset 0
    match catalogGet tbl.catalog id with
    | none => (none, tbl)
    | some tg =>
      let diff := schemaDifference tg.column_map tbl.default_partition
      if diff < theta then (none, tbl)
      else
        let ng := setTransformedTileGroup tg (newTileGroup tg tbl.default_partition)
        (some ng, { tbl with catalog := catalogAdd tbl.catalog id ng })
  else (none, tbl)

/-! ### Row sampling (`DataTable::SampleRows`, data_table.cpp:1046-1156)

The PRNG is modelled as a stream `gen : Nat → Nat` of draws consumed in
order, and the transaction manager's visibility test as a predicate
`vis tgOffset slotArg` of the two data the C++ passes to
`TransactionManager::IsVisible`: the identity of the tile-group header (we
record the tile-group *offset* whose header is fetched) and the tuple-slot
argument.  The trace of `IsVisible` calls is returned so theorems can talk
about the arguments the source actually passes. -/

/-- An `ItemPointer` as built by `SampleRows` (data_table.cpp:1149). -/
structure ItemPointer where
  block : Nat
  offset : Nat
deriving Repr, DecidableEq

/-- The sampling-related members of `DataTable`. -/
structure SampleState where
  samples_for_optimizer : List ItemPointer
  cardinality_map : List (Nat × Nat)
  sampled_tile_group_id : Option Nat
  catalog_ids : List Nat
deriving Repr, DecidableEq

/-- Insertion into the ordered duplicate-free `std::set<oid_t> row_id_set`,
modelled as a sorted duplicate-free list. -/
def setInsert (x : Nat) : List Nat → List Nat
  | [] => [x]
  | y :: ys =>
    if x < y then x :: y :: ys
    else if x = y then y :: ys
    else y :: setInsert x ys

/-- The inner `for` loop of `SampleRows` (data_table.cpp:1111-1131): draw a
row id, fetch the header of the tile group at offset
`random_row_id / tuples_per_tilegroup`, and call
`IsVisible(header_p, random_row_id)` — note the second argument is the whole
row id (data_table.cpp:1123).  Visible draws are inserted into the set;
break early once the set reaches `sample_size`.  Arguments: draws left in
this pass, next stream index, the set, the `IsVisible` call trace. -/
def sampleInnerLoop (c n : Nat) (gen : Nat → Nat) (vis : Nat → Nat → Bool) :
    Nat → Nat → List Nat → List (Nat × Nat) →
    List Nat × Nat × List (Nat × Nat)
  | 0, idx, s, tr => (s, idx, tr)
  | i + 1, idx, s, tr =>
    let rid := gen idx
    let tgOffset := rid / c
    let s2 := if vis tgOffset rid then setInsert rid s else s
    let tr2 := tr ++ [(tgOffset, rid)]
    if n ≤ s2.length then (s2, idx + 1, tr2)
    else sampleInnerLoop c n gen vis i (idx + 1) s2 tr2

/-- The outer `while` loop of `SampleRows` (data_table.cpp:1107): repeat
inner passes of `sample_size` draws while the set is short of `sample_size`
and fewer than 10 passes have run (`rounds` counts down from 10). -/
def sampleRounds (c n : Nat) (gen : Nat → Nat) (vis : Nat → Nat → Bool) :
    Nat → Nat → List Nat → List (Nat × Nat) → List Nat × List (Nat × Nat)
  | 0, _, s, tr => (s, tr)
  | r + 1, idx, s, tr =>
    if s.length < n then
      let step := sampleInnerLoop c n gen vis n idx s tr
      sampleRounds c n gen vis r step.2.1 step.1 step.2.2
    else (s, tr)

/-- `DataTable::SampleRows` (data_table.cpp:1046): clear the previous
optimizer sample, drop any materialized sample tile group from the catalog
(the `sampled_tile_group_id` member itself is *not* reset), clear the
cardinality map; when `sample_size ≥ tuple_count_exact` take every row id in
order without visibility checks, otherwise run the random rounds; finally
convert the set to `ItemPointer`s via `/` and `%` by `tuples_per_tilegroup`
(data_table.cpp:1141-1142).  Returns the new state, the returned sample
size, and the `IsVisible` call trace. -/
def sampleRows (c total : Nat) (gen : Nat → Nat) (vis : Nat → Nat → Bool)
    (sample_size : Nat) (st : SampleState) :
    SampleState × Nat × List (Nat × Nat) :=
  let st1 := { st with samples_for_optimizer := ([] : List ItemPointer) }
  let st2 := match st1.sampled_tile_group_id with
    | some id => { st1 with catalog_ids := st1.catalog_ids.filter (fun x => x ≠ id) }
    | none => st1
  let st3 := { st2 with cardinality_map := ([] : List (Nat × Nat)) }
  let run :=
    if total ≤ sample_size then (List.range total, ([] : List (Nat × Nat)))
    else sampleRounds c sample_size gen vis 10 0 [] []
  let ptrs := run.1.map (fun rid => ItemPointer.mk (rid / c) (rid % c))
  ({ st3 with samples_for_optimizer := st3.samples_for_optimizer ++ ptrs },
   run.1.length, run.2)

end Storage

namespace Optimizer

/-! ### The optimizer memo and the binding iterators (binding.cpp / binding.h)

Groups, operators, patterns and plan nodes are modelled from
binding.cpp's closed `ChildVisitor` enumeration and §6 of the spec; the data
carried by operators beyond their child group ids (base tables, predicates,
…) does not influence binding, so it is reduced to an opaque `Nat` tag on
`LogicalGet`. -/

abbrev GroupID := Nat

/-- The operator enumeration understood by `ChildVisitor` (binding.cpp:24),
plus the pattern-only `LeafOperator(group)` that `GroupBindingIterator::Next`
produces for `Leaf` patterns (binding.cpp:150). -/
inductive Operator
  | logicalGet (table : Nat)
  | logicalProject (child : GroupID)
  | logicalFilter (child : GroupID)
  | logicalInnerJoin (outer inner : GroupID)
  | logicalLeftJoin (outer inner : GroupID)
  | logicalRightJoin (outer inner : GroupID)
  | logicalOuterJoin (outer inner : GroupID)
  | logicalAggregate (child : GroupID)
  | logicalLimit (child : GroupID)
  | leafOperator (group : GroupID)
deriving Repr, DecidableEq

/-- Operator/pattern node types (`OpType`); `leaf` is the wildcard. -/
inductive OpType
  | leaf
  | get
  | project
  | filter
  | innerJoin
  | leftJoin
  | rightJoin
  | outerJoin
  | aggregate
  | limit
deriving Repr, DecidableEq

/-- `Operator::type()`. -/
def Operator.opType : Operator → OpType
  | .logicalGet _ => .get
  | .logicalProject _ => .project
  | .logicalFilter _ => .filter
  | .logicalInnerJoin _ _ => .innerJoin
  | .logicalLeftJoin _ _ => .leftJoin
  | .logicalRightJoin _ _ => .rightJoin
  | .logicalOuterJoin _ _ => .outerJoin
  | .logicalAggregate _ => .aggregate
  | .logicalLimit _ => .limit
  | .leafOperator _ => .leaf

/-- `ChildVisitor::GetChildren` (binding.cpp:26): the structural child
groups of each operator, in visit order (`outer` before `inner`).
`LeafOperator` has no visitor case and yields no children. -/
def Operator.children : Operator → List GroupID
  | .logicalGet _ => []
  | .logicalProject c => [c]
  | .logicalFilter c => [c]
  | .logicalInnerJoin o i => [o, i]
  | .logicalLeftJoin o i => [o, i]
  | .logicalRightJoin o i => [o, i]
  | .logicalOuterJoin o i => [o, i]
  | .logicalAggregate c => [c]
  | .logicalLimit c => [c]
  | .leafOperator _ => []

/-- A structural pattern: a node type plus child patterns
(`Pattern::Type()`, `Pattern::Children()`). -/
inductive Pattern
  | mk (type : OpType) (children : List Pattern)

/-- `Pattern::Type()`. -/
def Pattern.ptype : Pattern → OpType
  | .mk t _ => t

/-- `Pattern::Children()`. -/
def Pattern.pchildren : Pattern → List Pattern
  | .mk _ ps => ps

/-- A concrete plan tree (`OpPlanNode`): root operator plus child plans. -/
inductive OpPlanNode
  | node (op : Operator) (children : List OpPlanNode)

/-- A default plan node (used only as the `List.getD` fallback; never
produced by runs within bounds). -/
def dfltPlan : OpPlanNode := .node (.leafOperator 0) []

/-- A memo group: its ordered item list and the parallel `explored` flag
list (`Group::GetOperators`, `Group::GetExploredFlags`). -/
structure Group where
  items : List Operator
  explored : List Bool
deriving Repr, DecidableEq

/-- The optimizer's group vector (`optimizer.groups`, binding.cpp:81). -/
structure Memo where
  groups : List Group
deriving Repr, DecidableEq

/-- The group at `gid` (out-of-range reads give an empty group). -/
def Memo.group (m : Memo) (gid : GroupID) : Group :=
  m.groups.getD gid { items := [], explored := [] }

/-- The live item list of a group, as seen through the
`target_group_items` reference member (binding.h:61). -/
def Memo.items (m : Memo) (gid : GroupID) : List Operator :=
  (m.group gid).items

/-- Replace the group at `gid`. -/
def Memo.updateGroup (m : Memo) (gid : GroupID) (f : Group → Group) : Memo :=
  { groups := m.groups.set gid (f (m.group gid)) }

/-- `Group::set_explored(i)` (binding.cpp:105). -/
def Group.setExplored (g : Group) (i : Nat) : Group :=
  { g with explored := g.explored.set i true }

/-- Modelled from the spec: a transformation rule, as seen by
`Optimizer::ExploreItem` (optimizer.cpp is not part of the sources).  §4.7
of the spec says exploration of an item "may append new items to this group
or create new groups"; a rule is modelled by the list of operators its
application to a given item appends to the item's own group (appending to
other/new groups does not interact with the claims about the constructor's
loop over one group). -/
def Rule := Operator → List Operator

/-- Modelled from the spec: `Optimizer::ExploreItem(group_id, i, rule)`
appends the rule's output to the group, with fresh *unmarked* `explored`
flags (spec §4.7: appended items "will be unmarked"). -/
def exploreItem (m : Memo) (gid : GroupID) (i : Nat) (rule : Rule) : Memo :=
  m.updateGroup gid (fun g =>
    let newOps := rule (g.items.getD i (.logicalGet 0))
    { items := g.items ++ newOps
      explored := g.explored ++ newOps.map (fun _ => false) })

/-- The exploration loop of the `GroupBindingIterator` constructor
(binding.cpp:103-110).  `target_group_items` is a C++ *reference* to the
group's live operator vector (binding.h:61), so the loop bound
`target_group_items.size()` is re-read every iteration and sees items
appended by `ExploreItem`.  Returns the resulting memo, the indices of the
items whose rules were invoked (in visit order), and whether the loop exited
normally (`i` reached the size) rather than by running out of fuel. -/
def exploreLoop (rules : List Rule) (gid : GroupID) :
    Nat → Nat → Memo → Memo × List Nat × Bool
  | 0, _, m => (m, [], false)
  | fuel + 1, i, m =>
    if i < (m.group gid).items.length then
      if (m.group gid).explored.getD i false then
        exploreLoop rules gid fuel (i + 1) m
      else
        let m2 := m.updateGroup gid (fun g => g.setExplored i)
        let m3 := rules.foldl (fun acc r => exploreItem acc gid i r) m2
        let rest := exploreLoop rules gid fuel (i + 1) m3
        (rest.1, i :: rest.2.1, rest.2.2)
    else (m, [], true)

/-! #### Running the iterators to exhaustion

The enumeration theorems are about runs of the canonical driver
`while (HasNext()) out.push_back(Next())` over a memo that the run itself
does not change (all items already explored, or no rule produces anything),
which is the setting of the enumeration claims; exploration is settled
separately by the theorems about `exploreLoop`. -/

/-- All combinations of one element from each list, leftmost position
varying slowest — the mixed-radix odometer order in which
`ItemBindingIterator` enumerates the cartesian product of its children's
bindings. -/
def prodAll : List (List α) → List (List α)
  | [] => [[]]
  | l :: ls => l.flatMap (fun x => (prodAll ls).map (fun xs => x :: xs))

/-- Mixed-radix odometer count sequence for radices `ns`: all index tuples,
starting at all-zero, rightmost position incrementing first. -/
def odoIndices : List Nat → List (List Nat)
  | [] => [[]]
  | n :: ns => (List.range n).flatMap (fun i => (odoIndices ns).map (fun ix => i :: ix))

/-- Select the combination at index tuple `ix` from the lists `ls`. -/
def sel (ls : List (List OpPlanNode)) (ix : List Nat) : List OpPlanNode :=
  List.zipWith (fun l i => l.getD i dfltPlan) ls ix

/-- The odometer-increment loop of `ItemBindingIterator::HasNext`
(binding.cpp:209-239) on *reversed* lists (the C++ loop walks the child
positions from the rightmost end): pop the current child binding, increment
the position, zeroing and carrying leftwards on overflow; the popped
entries are replayed from the updated positions (binding.cpp:230-239).
Arguments: children binding lists, positions, current child stack, all
reversed; `none` when every position overflows (`has_next` goes false). -/
def odoStepRev : List (List OpPlanNode) → List Nat → List OpPlanNode →
    Option (List Nat × List OpPlanNode)
  | l :: ls, p :: ps, _ :: cs =>
    if p + 1 < l.length then
      some ((p + 1) :: ps, l.getD (p + 1) dfltPlan :: cs)
    else
      match odoStepRev ls ps cs with
      | some pc => some (0 :: pc.1, l.getD 0 dfltPlan :: pc.2)
      | none => none
  | _, _, _ => none

/-- The odometer increment in source order (wrapper reversing in and out). -/
def odoStep (ls : List (List OpPlanNode)) (ps : List Nat)
    (cs : List OpPlanNode) : Option (List Nat × List OpPlanNode) :=
  match odoStepRev ls.reverse ps.reverse cs.reverse with
  | some pc => some (pc.1.reverse, pc.2.reverse)
  | none => none

/-- The mutable part of an `ItemBindingIterator` after successful
construction: the `first` flag, `children_bindings_pos`, and the children of
`current_binding` (binding.h:84-88). -/
structure ItemIterState where
  first : Bool
  pos : List Nat
  cur : List OpPlanNode

/-- Run `while (HasNext()) out.push_back(Next())` on an
`ItemBindingIterator` whose constructor set `has_next` (binding.cpp:203):
the first `HasNext` merely clears `first`, so the initial combination is
yielded; every later `HasNext` advances the odometer and either yields the
new combination or exhausts.  Returns the yields and whether the iterator
exhausted within fuel. -/
def itemRunAux (op : Operator) (ls : List (List OpPlanNode)) :
    Nat → ItemIterState → List OpPlanNode × Bool
  | 0, _ => ([], false)
  | fuel + 1, st =>
    if st.first then
      let r := itemRunAux op ls fuel { st with first := false }
      (.node op st.cur :: r.1, r.2)
    else
      match odoStep ls st.pos st.cur with
      | some pc =>
        let r := itemRunAux op ls fuel { first := false, pos := pc.1, cur := pc.2 }
        (.node op pc.2 :: r.1, r.2)
      | none => ([], true)

/-- An `ItemBindingIterator` for item `op` (constructor,
binding.cpp:158-201) run to exhaustion, given the materialized runs of the
child `GroupBindingIterator`s (each child's yields, and whether that child
run exhausted — the C++ materializes each child with an unbounded `while`,
so a non-exhausted child marks the whole run as not finished).  Yields
nothing (constructor leaves `has_next == false`) when the item's type
differs from the pattern root, when the child-group count differs from the
pattern's child count, or when some child yields no binding; otherwise
enumerates the odometer product. -/
def itemIterRun (op : Operator) (t : OpType) (nChildPatterns : Nat)
    (childRuns : List (List OpPlanNode × Bool)) (fuel : Nat) :
    List OpPlanNode × Bool :=
  if op.opType ≠ t then ([], true)
  else if op.children.length ≠ nChildPatterns then ([], true)
  else if childRuns.any (fun r => !r.2) then ([], false)
  else
    let ls := childRuns.map Prod.fst
    if ls.any List.isEmpty then ([], true)
    else itemRunAux op ls fuel
      { first := true
        pos := ls.map (fun _ => 0)
        cur := ls.map (fun l => l.getD 0 dfltPlan) }

/-- The `Leaf`-pattern behavior of a `GroupBindingIterator` run to
exhaustion (binding.cpp:113-153): `HasNext()` returns
`current_item_index == 0`; `Next()` sets `current_item_index` to the
group's item count `n` and yields `LeafOperator(gid)`.  For `n = 0` the
index stays `0`, so `HasNext()` is true again after `Next()`. -/
def leafRunAux (gid : GroupID) (n : Nat) : Nat → Nat → List OpPlanNode × Bool
  | 0, _ => ([], false)
  | fuel + 1, idx =>
    if idx = 0 then
      let r := leafRunAux gid n fuel n
      (.node (.leafOperator gid) [] :: r.1, r.2)
    else ([], true)

/-- The non-`Leaf` item walk of `GroupBindingIterator::HasNext`
(binding.cpp:126-141) run to exhaustion: starting at `current_item_index =
idx`, construct an `ItemBindingIterator` per item, drain it, and advance.
`childFns` are the runners for the pattern's child patterns (one per child
pattern, applied to the item's child groups in order). -/
def groupItemsRun (m : Memo) (gid : GroupID) (t : OpType)
    (childFns : List (GroupID → Nat → List OpPlanNode × Bool))
    (fuel : Nat) (idx : Nat) : List OpPlanNode × Bool :=
  if idx < (m.items gid).length then
    let op := (m.items gid).getD idx (.logicalGet 0)
    let childRuns := List.zipWith (fun f g => f g fuel) childFns op.children
    let r := itemIterRun op t childFns.length childRuns fuel
    if r.2 then
      let rest := groupItemsRun m gid t childFns fuel (idx + 1)
      (r.1 ++ rest.1, rest.2)
    else (r.1, false)
  else ([], true)
termination_by (m.items gid).length - idx

/-- A `GroupBindingIterator(optimizer, gid, p)` over a fixed memo, run to
exhaustion by the canonical `while (HasNext()) Next()` driver.  Follows
binding.cpp:113-153: the `Leaf` special case, otherwise the item walk, with
each item's child bindings materialized by recursively running
`GroupBindingIterator`s for the child patterns (binding.cpp:186-195).
Returns the yields and whether the run exhausted within fuel. -/
def groupRun : Pattern → Memo → GroupID → Nat → List OpPlanNode × Bool
  | .mk t ps, m, gid, fuel =>
    if t = OpType.leaf then leafRunAux gid (m.items gid).length fuel 0
    else groupItemsRun m gid t
      (ps.attach.map (fun q => groupRun q.1 m)) fuel 0
termination_by p => sizeOf p
decreasing_by
  have hq := List.sizeOf_lt_of_mem q.2
  simp only [Pattern.mk.sizeOf_spec]
  omega

/-- The reference enumeration: the complete yield of a
`GroupBindingIterator` for `p` over group `gid`, as a pure function of the
memo (theorems below show the fuelled machine `groupRun` exhausts to exactly
this list).  A `Leaf` pattern yields the single plan `LeafOperator(gid)`;
otherwise each item of matching type and arity contributes the odometer
product of its children's bindings. -/
def groupBindings : Pattern → Memo → GroupID → List OpPlanNode
  | .mk t ps, m, gid =>
    if t = OpType.leaf then [.node (.leafOperator gid) []]
    else
      (m.items gid).flatMap (fun op =>
        if op.opType = t ∧ op.children.length = ps.length then
          (prodAll (List.zipWith (fun q g => groupBindings q.1 m g) ps.attach op.children)).map
            (fun cs => .node op cs)
        else [])
termination_by p => sizeOf p
decreasing_by
  have hq := List.sizeOf_lt_of_mem q.2
  simp only [Pattern.mk.sizeOf_spec]
  omega

/-- A plan tree matches pattern `p` rooted at group `gid`: a `Leaf` pattern
matches exactly the one-node plan `LeafOperator(gid)`; a non-leaf pattern
matches `op(c₁…cₖ)` when `op` is an item of the group with the pattern's
root type, its child-group count equals the pattern's child count, and each
child plan matches the corresponding child pattern rooted at the
corresponding child group. -/
inductive Matches (m : Memo) : Pattern → GroupID → OpPlanNode → Prop
  | leaf (ps : List Pattern) (gid : GroupID) :
      Matches m (.mk OpType.leaf ps) gid (.node (.leafOperator gid) [])
  | node (t : OpType) (ps : List Pattern) (gid : GroupID) (op : Operator)
      (cs : List OpPlanNode) :
      t ≠ OpType.leaf → op ∈ m.items gid → op.opType = t →
      op.children.length = ps.length →
      List.Forall₂ (fun (qg : Pattern × GroupID) c => Matches m qg.1 qg.2 c)
        (ps.zip op.children) cs →
      Matches m (.mk t ps) gid (.node op cs)

/-- Well-formedness of a memo for the enumeration theorems: every group is
nonempty (a `Leaf`-pattern iterator over an empty group never exhausts, see
the counterexample), duplicate-free, and mentions only in-range child
groups. -/
def Memo.WF (m : Memo) : Prop :=
  ∀ g ∈ m.groups, g.items ≠ [] ∧ g.items.Nodup ∧
    ∀ op ∈ g.items, ∀ cg ∈ op.children, cg < m.groups.length

instance (m : Memo) : Decidable m.WF := by
  unfold Memo.WF
  infer_instance

end Optimizer

/-! ### Concrete instances used by witnesses and counterexamples -/

namespace Storage

/-- A two-column row-layout tile group holding distinct cell values. -/
def exTG : TileGroupM Nat :=
  { tile_group_id := 5
    column_map := [(0, 0), (0, 1)]
    capacity := 2
    tiles := fun t r c => 100 * t + 10 * r + c
    header := { next_slot := 2 } }

/-- A table whose default partition moves column 1 to its own tile. -/
def exTable : TableTG Nat :=
  { tile_groups := [5]
    catalog := [(5, exTG)]
    default_partition := [(0, 0), (1, 0)] }

/-- A table whose default partition swaps the two columns inside tile 0, so
*every* column's placement differs from the tile group's
(`schema_difference = 1`). -/
def exTableAllDiff : TableTG Nat :=
  { tile_groups := [5]
    catalog := [(5, exTG)]
    default_partition := [(0, 1), (0, 0)] }

/-- A sampling state holding stale results of an earlier `SampleRows` /
`MaterializeSample` / `ComputeSampleCardinality` cycle. -/
def exSampleState : SampleState :=
  { samples_for_optimizer := [⟨0, 0⟩, ⟨0, 1⟩]
    cardinality_map := [(0, 2)]
    sampled_tile_group_id := some 9
    catalog_ids := [5, 9] }

/-- A draw stream for the C9 run: every draw is row id 3. -/
def exGen : Nat → Nat := fun _ => 3

/-- A visibility predicate that accepts everything. -/
def exVis : Nat → Nat → Bool := fun _ _ => true

end Storage

namespace Optimizer

/-- A memo whose single group 0 has no items. -/
def exMemoEmpty : Memo := { groups := [{ items := [], explored := [] }] }

/-- The S5-shaped memo: group 0 holds `InnerJoin(g1, g2)`, group 1 two
distinct `Get` items, group 2 three distinct `Get` items. -/
def exMemoJoin : Memo :=
  { groups :=
      [ { items := [.logicalInnerJoin 1 2], explored := [true] }
      , { items := [.logicalGet 0, .logicalGet 1], explored := [true, true] }
      , { items := [.logicalGet 2, .logicalGet 3, .logicalGet 4],
          explored := [true, true, true] } ] }

/-- The pattern `InnerJoin(Get, Get)`. -/
def exPatJoin : Pattern := .mk .innerJoin [.mk .get [], .mk .get []]

/-- The wildcard pattern `Leaf`. -/
def exPatLeaf : Pattern := .mk .leaf []

/-- A rule appending `Get 7` to the group whenever it is applied to the
item `Filter(g1)` and nothing otherwise. -/
def exRule : Rule := fun op => if op = .logicalFilter 1 then [.logicalGet 7] else []

/-- A memo whose group 0 holds one unexplored `Filter(g1)` item. -/
def exMemoExplore : Memo :=
  { groups :=
      [ { items := [.logicalFilter 1], explored := [false] }
      , { items := [.logicalGet 0], explored := [true] } ] }

/-- The memo `exploreLoop` produces from `exMemoExplore` with `exRule`:
the appended `Get 7` item was itself explored (flag `true`) by the same
constructor loop. -/
def exMemoExploreOut : Memo :=
  { groups :=
      [ { items := [.logicalFilter 1, .logicalGet 7], explored := [true, true] }
      , { items := [.logicalGet 0], explored := [true] } ] }

/-- The odometer invariant: every position indexes into its child binding
list (in particular every list is nonempty). -/
def OdoInv (ls : List (List OpPlanNode)) (ps : List Nat) : Prop :=
  List.Forall₂ (fun (l : List OpPlanNode) (p : Nat) => p < l.length) ls ps

/-- The suffix of the odometer-ordered cartesian product starting at
position tuple `ps`: first the combinations fixing the head at `ps`'s head
while the tail odometer runs from `ps`'s tail to its end, then the head
advances through the remaining elements with the tail running over the
whole product. -/
def tuplesFrom : List (List OpPlanNode) → List Nat → List (List OpPlanNode)
  | [], _ => [[]]
  | _ :: _, [] => []
  | l :: ls, p :: ps =>
    ((tuplesFrom ls ps).map (fun xs => l.getD p dfltPlan :: xs)) ++
    ((l.drop (p + 1)).flatMap (fun x => (prodAll ls).map (fun xs => x :: xs)))

/-- A memo whose single group holds the *same* `Get` item twice. -/
def exMemoDup : Memo :=
  { groups := [{ items := [.logicalGet 5, .logicalGet 5], explored := [true, true] }] }

/-- Materialized child runs with 2 and 3 bindings (as `ItemBindingIterator`
receives them from its child `GroupBindingIterator`s), both exhausted. -/
def exChildRuns : List (List OpPlanNode × Bool) :=
  [ ([.node (.logicalGet 0) [], .node (.logicalGet 1) []], true)
  , ([.node (.logicalGet 2) [], .node (.logicalGet 3) [],
      .node (.logicalGet 4) []], true) ]

end Optimizer

/-! ## Theorems -/

namespace Storage

/-! ### C1: insert bookkeeping -/

theorem replicate_append_getD (q c r : Nat) :
    (List.replicate q c ++ [r]).getD q 0 = r := by
  induction q with
  | zero => rfl
  | succ q ih => simp [List.replicate_succ, ih]

theorem replicate_append_set (q c r v : Nat) :
    (List.replicate q c ++ [r]).set q v = List.replicate q c ++ [v] := by
  induction q with
  | zero => rfl
  | succ q ih => simp [List.replicate_succ, ih]

theorem replicate_append_getLast? (q c r : Nat) :
    (List.replicate q c ++ [r]).getLast? = some r := by
  simp [List.getLast?_append]

/-- One successful insert on a table in canonical shape
`replicate q c ++ [r]` (all non-last tile groups full). -/
theorem insertTuple_inv {c : Nat} (hc : 1 ≤ c) (q r : Nat) (t : TableIns)
    (ht : t.tile_groups = List.replicate q c ++ [r]) (hr : r ≤ c) :
    ∃ q2 r2 s, insertTuple c 2 t =
      some ({ tile_groups := List.replicate q2 c ++ [r2],
              tuple_count_exact := t.tuple_count_exact + 1 }, s) ∧
      q2 * c + r2 = q * c + r + 1 ∧ 1 ≤ r2 ∧ r2 ≤ c := by
  by_cases hrc : r < c
  · refine ⟨q, r + 1, r, ?_, by ring, by omega, by omega⟩
    simp only [insertTuple, getTupleSlot, ht, tileGroupInsertTuple,
      List.length_append, List.length_replicate, List.length_cons,
      List.length_nil, Nat.add_sub_cancel, replicate_append_getD, hrc,
      if_pos, replicate_append_set]
  · have hrc2 : r = c := by omega
    subst hrc2
    refine ⟨q + 1, 1, 0, ?_, by ring, le_refl 1, hc⟩
    have hfull : ¬ (r < r) := lt_irrefl r
    have hstep : addDefaultTileGroup r t =
        { t with tile_groups := List.replicate (q + 1) r ++ [0] } := by
      simp only [addDefaultTileGroup, ht, replicate_append_getLast?, hfull,
        if_neg, not_false_iff]
      have : (List.replicate q r ++ [r]) ++ [0] = List.replicate (q + 1) r ++ [0] := by
        rw [← List.replicate_succ' q r]
      simp [this]
    simp only [insertTuple, getTupleSlot, ht, tileGroupInsertTuple,
      List.length_append, List.length_replicate, List.length_cons,
      List.length_nil, Nat.add_sub_cancel, replicate_append_getD, hfull,
      if_neg, not_false_iff, hstep]
    have h0 : 0 < r := hc
    simp [replicate_append_getD, replicate_append_set, h0]

/-- Running `k` single-threaded inserts preserves the canonical shape. -/
theorem insertN_inv {c : Nat} (hc : 1 ≤ c) :
    ∀ (k q r : Nat) (t : TableIns),
    t.tile_groups = List.replicate q c ++ [r] → r ≤ c → (r = 0 → q = 0) →
    t.tuple_count_exact = q * c + r →
    ∃ q2 r2 t2, insertN c k t = some t2 ∧
      t2.tile_groups = List.replicate q2 c ++ [r2] ∧ r2 ≤ c ∧
      (r2 = 0 → q2 = 0) ∧
      q2 * c + r2 = q * c + r + k ∧ t2.tuple_count_exact = q2 * c + r2 := by
  intro k
  induction k with
  | zero =>
    intro q r t ht hr hr0 hcnt
    exact ⟨q, r, t, rfl, ht, hr, hr0, by ring, hcnt⟩
  | succ k ih =>
    intro q r t ht hr hr0 hcnt
    obtain ⟨q2, r2, s, hstep, hsum, hr2lo, hr2hi⟩ := insertTuple_inv hc q r t ht hr
    obtain ⟨q3, r3, t3, hrun, ht3, hr3, hr30, hsum3, hcnt3⟩ :=
      ih q2 r2 { tile_groups := List.replicate q2 c ++ [r2],
                 tuple_count_exact := t.tuple_count_exact + 1 } rfl hr2hi
        (by omega) (by simp only [hcnt]; omega)
    refine ⟨q3, r3, t3, ?_, ht3, hr3, hr30, by omega, hcnt3⟩
    simp only [insertN, hstep, hrun]

/-- C1.  For every per-tile-group capacity `c ≥ 1` and every number `k` of
successful single-threaded `InsertTuple` calls on a fresh table, the sum of
`next_slot` over all tile groups equals `tuple_count_exact` equals `k`, and
the table holds exactly `max 1 ⌈k/c⌉` tile groups. -/
theorem insertN_sum_count_tileGroups (c k : Nat) (hc : 1 ≤ c) :
    ∃ t, insertN c k (freshTable c) = some t ∧
      t.tile_groups.sum = k ∧ t.tuple_count_exact = k ∧
      t.tile_groups.length = max 1 ((k + c - 1) / c) := by
  have hfresh : (freshTable c).tile_groups = List.replicate 0 c ++ [0] := rfl
  obtain ⟨q2, r2, t2, hrun, ht2, hr2, hr20, hsum, hcnt⟩ :=
    insertN_inv hc k 0 0 (freshTable c) hfresh (Nat.zero_le c) (fun _ => rfl)
      (by simp [freshTable, addDefaultTileGroup])
  refine ⟨t2, hrun, ?_, ?_, ?_⟩
  · rw [ht2]
    simp [List.sum_replicate, smul_eq_mul]
    omega
  · omega
  · rw [ht2]
    simp only [List.length_append, List.length_replicate, List.length_cons,
      List.length_nil]
    by_cases hr0 : r2 = 0
    · have hq0 := hr20 hr0
      subst hr0; subst hq0
      have hk : k = 0 := by omega
      subst hk
      have : (0 + c - 1) / c = 0 := Nat.div_eq_of_lt (by omega)
      omega
    · have h1 : 1 ≤ r2 := by omega
      have hk : k + c - 1 = (r2 + c - 1) + q2 * c := by omega
      have hdiv : (r2 + c - 1) / c = 1 := by
        apply Nat.div_eq_of_lt_le
        · omega
        · omega
      rw [hk, Nat.add_mul_div_right _ _ (by omega : 0 < c), hdiv]
      omega

/-- Witness for C1 at the S1 scenario: capacity 2, three inserts. -/
theorem insertN_sum_count_tileGroups_witness :
    1 ≤ 2 ∧
    ∃ t, insertN 2 3 (freshTable 2) = some t ∧
      t.tile_groups.sum = 3 ∧ t.tuple_count_exact = 3 ∧
      t.tile_groups.length = max 1 ((3 + 2 - 1) / 2) :=
  ⟨by decide, insertN_sum_count_tileGroups 2 3 (by decide)⟩

/-! ### C7/C8: layout transformation -/

theorem innerFold_get {α : Type} (nt nc : Nat) (g : Nat → α) (r0 : Nat) :
    ∀ (n : Nat) (acc : Nat → Nat → Nat → α), r0 < n →
    ((List.range n).foldl (fun a row => updateCell a nt row nc (g row)) acc)
      nt r0 nc = g r0 := by
  intro n
  induction n with
  | zero => intro acc h; omega
  | succ n ih =>
    intro acc hr
    rw [List.range_succ, List.foldl_append]
    simp only [List.foldl_cons, List.foldl_nil]
    by_cases h : r0 = n
    · subst h; simp [updateCell]
    · have hlt : r0 < n := by omega
      simp only [updateCell]
      rw [if_neg (by simp [h])]
      exact ih acc hlt

theorem innerFold_ne {α : Type} (nt nc : Nat) (g : Nat → α) (t r c : Nat)
    (h : t ≠ nt ∨ c ≠ nc) :
    ∀ (n : Nat) (acc : Nat → Nat → Nat → α),
    ((List.range n).foldl (fun a row => updateCell a nt row nc (g row)) acc)
      t r c = acc t r c := by
  intro n
  induction n with
  | zero => intro acc; rfl
  | succ n ih =>
    intro acc
    rw [List.range_succ, List.foldl_append]
    simp only [List.foldl_cons, List.foldl_nil]
    simp only [updateCell]
    rw [if_neg (by rcases h with h | h <;> simp [h])]
    exact ih acc

theorem colFold_ne {α : Type} (nlocf : Nat → Nat × Nat)
    (valf : Nat → Nat → α) (tc : Nat) :
    ∀ (L : List Nat) (acc : Nat → Nat → Nat → α) (t0 r0 c0 : Nat),
    (∀ col ∈ L, nlocf col ≠ (t0, c0)) →
    (L.foldl (fun a col => (List.range tc).foldl
        (fun a2 row => updateCell a2 (nlocf col).1 row (nlocf col).2 (valf col row)) a)
      acc) t0 r0 c0 = acc t0 r0 c0 := by
  intro L
  induction L with
  | nil => intro acc t0 r0 c0 _; rfl
  | cons col L2 ih =>
    intro acc t0 r0 c0 hne
    simp only [List.foldl_cons]
    rw [ih _ t0 r0 c0 (fun x hx => hne x (List.mem_cons_of_mem _ hx))]
    have hp := hne col (List.mem_cons_self col L2)
    apply innerFold_ne
    by_contra hcon
    push_neg at hcon
    obtain ⟨h1, h2⟩ := hcon
    exact hp (by rw [h1, h2])

theorem colFold_get {α : Type} (nlocf : Nat → Nat × Nat)
    (valf : Nat → Nat → α) (tc : Nat) :
    ∀ (L : List Nat) (acc : Nat → Nat → Nat → α) (c0 : Nat), c0 ∈ L →
    (∀ col ∈ L, col ≠ c0 → nlocf col ≠ nlocf c0) → ∀ r0, r0 < tc →
    (L.foldl (fun a col => (List.range tc).foldl
        (fun a2 row => updateCell a2 (nlocf col).1 row (nlocf col).2 (valf col row)) a)
      acc) (nlocf c0).1 r0 (nlocf c0).2 = valf c0 r0 := by
  intro L
  induction L with
  | nil => intro acc c0 hmem; exact absurd hmem (List.not_mem_nil c0)
  | cons col L2 ih =>
    intro acc c0 hmem hinj r0 hr0
    simp only [List.foldl_cons]
    by_cases hmem2 : c0 ∈ L2
    · exact ih _ c0 hmem2
        (fun x hx hne => hinj x (List.mem_cons_of_mem _ hx) hne) r0 hr0
    · have hcol : col = c0 := by
        rcases List.mem_cons.mp hmem with h | h
        · exact h.symm
        · exact absurd h hmem2
      subst hcol
      rw [colFold_ne nlocf valf tc L2 _ _ r0 _ ?_]
      · exact innerFold_get _ _ _ r0 tc acc hr0
      · intro x hx
        have hxne : x ≠ col := fun he => hmem2 (he ▸ hx)
        have hq := hinj x (List.mem_cons_of_mem _ hx) hxne
        intro he
        exact hq (by rw [he])

/-- The tile store of a transformed tile group: reading any copied column
at any allocated slot through the *new* column map returns the original
cell, provided the new partition places distinct columns at distinct
`(tile, tile-column)` positions. -/
theorem setTransformed_read {α : Type} (orig ng : TileGroupM α)
    (hinj : ∀ i < ng.column_map.length, ∀ j < ng.column_map.length, i ≠ j →
      ng.column_map.getD i (0, 0) ≠ ng.column_map.getD j (0, 0)) :
    ∀ col < ng.column_map.length, ∀ s < orig.capacity,
    readValue (setTransformedTileGroup orig ng) col s = readValue orig col s := by
  intro col hcol s hs
  have hmap : (setTransformedTileGroup orig ng).column_map = ng.column_map := rfl
  simp only [readValue, locateTileAndColumn, hmap, setTransformedTileGroup]
  exact colFold_get
    (fun c => ng.column_map.getD c (0, 0))
    (fun c row =>
      orig.tiles (orig.column_map.getD c (0, 0)).1 row (orig.column_map.getD c (0, 0)).2)
    orig.capacity (List.range ng.column_map.length) ng.tiles col
    (List.mem_range.mpr hcol)
    (fun x hx hne => hinj x (List.mem_range.mp hx) col hcol hne) s hs

/-- Evaluation of `TransformTileGroup` past the offset check and the
catalog lookup: the result is decided by the threshold comparison. -/
theorem transformTileGroup_eval {α : Type} [Inhabited α]
    (tbl : TableTG α) (offset : Nat) (theta : ℚ) (tg : TileGroupM α)
    (hoff : offset < tbl.tile_groups.length)
    (hcat : catalogGet tbl.catalog (tbl.tile_groups.getD offset 0) = some tg) :
    transformTileGroup tbl offset theta =
      if schemaDifference tg.column_map tbl.default_partition < theta then
        (none, tbl)
      else
        (some (setTransformedTileGroup tg (newTileGroup tg tbl.default_partition)),
         { tbl with catalog := (catalogAdd tbl.catalog (tbl.tile_groups.getD offset 0)
            (setTransformedTileGroup tg (newTileGroup tg tbl.default_partition))) }) := by
  simp only [transformTileGroup, if_pos hoff, hcat]

theorem exTable_diff_eq_half :
    schemaDifference exTG.column_map exTable.default_partition = 1 / 2 := by
  have h : (List.range exTG.column_map.length).countP
      (fun c => exTG.column_map.getD c (0, 0) ≠ exTable.default_partition.getD c (0, 0)) = 1 := by
    decide
  unfold schemaDifference
  rw [h, show exTG.column_map.length = 2 from rfl]
  norm_num

theorem exTable_diff_not_lt_zero :
    ¬ schemaDifference exTG.column_map exTable.default_partition < 0 := by
  rw [exTable_diff_eq_half]
  norm_num

theorem exTableAllDiff_diff_eq_one :
    schemaDifference exTG.column_map exTableAllDiff.default_partition = 1 := by
  have h : (List.range exTG.column_map.length).countP
      (fun c => exTG.column_map.getD c (0, 0) ≠ exTableAllDiff.default_partition.getD c (0, 0)) = 2 := by
    decide
  unfold schemaDifference
  rw [h, show exTG.column_map.length = 2 from rfl]
  norm_num

/-- C7 (theorem).  Whenever `TransformTileGroup` performs a transformation
(valid offset, registered tile group, schema difference at or above the
threshold) and the default partition places distinct columns at distinct
positions, the result preserves identity and data: the same
`tile_group_id` is re-registered in the catalog, the new tile group's
header — hence its `next_slot` — equals the old one's, and every
(column, slot) read through the new tile group equals the read through the
old one. -/
theorem transformTileGroup_preserves {α : Type} [Inhabited α]
    (tbl : TableTG α) (offset : Nat) (theta : ℚ) (tg : TileGroupM α)
    (hoff : offset < tbl.tile_groups.length)
    (hcat : catalogGet tbl.catalog (tbl.tile_groups.getD offset 0) = some tg)
    (hdiff : ¬ schemaDifference tg.column_map tbl.default_partition < theta)
    (hinj : ∀ i < tbl.default_partition.length, ∀ j < tbl.default_partition.length,
      i ≠ j → tbl.default_partition.getD i (0, 0) ≠ tbl.default_partition.getD j (0, 0)) :
    ∃ ng, transformTileGroup tbl offset theta =
        (some ng, { tbl with catalog := catalogAdd tbl.catalog (tbl.tile_groups.getD offset 0) ng }) ∧
      ng.tile_group_id = tg.tile_group_id ∧
      catalogGet (catalogAdd tbl.catalog (tbl.tile_groups.getD offset 0) ng)
        (tbl.tile_groups.getD offset 0) = some ng ∧
      ng.header = tg.header ∧
      ∀ col < tbl.default_partition.length, ∀ s < tg.capacity,
        readValue ng col s = readValue tg col s := by
  refine ⟨setTransformedTileGroup tg (newTileGroup tg tbl.default_partition),
    ?_, rfl, ?_, rfl, ?_⟩
  · rw [transformTileGroup_eval tbl offset theta tg hoff hcat, if_neg hdiff]
  · simp [catalogGet, catalogAdd]
  · exact setTransformed_read tg (newTileGroup tg tbl.default_partition) hinj

/-- Witness for C7: the two-column example table, threshold `0`. -/
theorem transformTileGroup_preserves_witness :
    (0 < exTable.tile_groups.length ∧
     catalogGet exTable.catalog (exTable.tile_groups.getD 0 0) = some exTG ∧
     ¬ schemaDifference exTG.column_map exTable.default_partition < 0 ∧
     (∀ i < exTable.default_partition.length, ∀ j < exTable.default_partition.length,
        i ≠ j → exTable.default_partition.getD i (0, 0) ≠ exTable.default_partition.getD j (0, 0))) ∧
    ∃ ng, transformTileGroup exTable 0 0 =
        (some ng, { exTable with catalog := catalogAdd exTable.catalog (exTable.tile_groups.getD 0 0) ng }) ∧
      ng.tile_group_id = exTG.tile_group_id ∧
      catalogGet (catalogAdd exTable.catalog (exTable.tile_groups.getD 0 0) ng)
        (exTable.tile_groups.getD 0 0) = some ng ∧
      ng.header = exTG.header ∧
      ∀ col < exTable.default_partition.length, ∀ s < exTG.capacity,
        readValue ng col s = readValue exTG col s :=
  ⟨⟨by decide, rfl, exTable_diff_not_lt_zero, by decide⟩,
    transformTileGroup_preserves exTable 0 0 exTG (by decide) rfl
      exTable_diff_not_lt_zero (by decide)⟩

/-- C8 (amended).  For a valid tile-group offset with a registered tile
group, `TransformTileGroup` returns null and leaves the table unchanged
*iff* the schema difference is below the threshold. -/
theorem transformTileGroup_none_iff {α : Type} [Inhabited α]
    (tbl : TableTG α) (offset : Nat) (theta : ℚ) (tg : TileGroupM α)
    (hoff : offset < tbl.tile_groups.length)
    (hcat : catalogGet tbl.catalog (tbl.tile_groups.getD offset 0) = some tg) :
    ((transformTileGroup tbl offset theta).1 = none ∧
     (transformTileGroup tbl offset theta).2 = tbl) ↔
    schemaDifference tg.column_map tbl.default_partition < theta := by
  rw [transformTileGroup_eval tbl offset theta tg hoff hcat]
  by_cases hdiff : schemaDifference tg.column_map tbl.default_partition < theta
  · rw [if_pos hdiff]
    exact ⟨fun _ => hdiff, fun _ => ⟨rfl, rfl⟩⟩
  · rw [if_neg hdiff]
    constructor
    · intro h
      exact absurd h.1 (by simp)
    · intro h
      exact absurd h hdiff

/-- Witness for C8's amended theorem: the example table with threshold `1`;
its schema difference from the default partition is `1/2 < 1`, so the call
returns null and changes nothing. -/
theorem transformTileGroup_none_iff_witness :
    (0 < exTable.tile_groups.length ∧
     catalogGet exTable.catalog (exTable.tile_groups.getD 0 0) = some exTG) ∧
    (((transformTileGroup exTable 0 1).1 = none ∧
      (transformTileGroup exTable 0 1).2 = exTable) ↔
     schemaDifference exTG.column_map exTable.default_partition < 1) :=
  ⟨⟨by decide, rfl⟩, transformTileGroup_none_iff exTable 0 1 exTG (by decide) rfl⟩

/-- Counterexample to C8 as stated: a tile group *all* of whose column
placements differ from the default partition has schema difference `1`,
which is not `< 1`, so `TransformTileGroup` with `theta = 1.0` performs
the transformation and returns a non-null result — the claim's
"theta = 1.0 always returns null" is false at this input. -/
theorem transformTileGroup_theta_one_not_null :
    (transformTileGroup exTableAllDiff 0 1).1.isSome = true ∧
    schemaDifference exTG.column_map exTableAllDiff.default_partition = 1 := by
  refine ⟨?_, exTableAllDiff_diff_eq_one⟩
  have hno : ¬ schemaDifference exTG.column_map exTableAllDiff.default_partition < 1 := by
    rw [exTableAllDiff_diff_eq_one]
    exact lt_irrefl 1
  rw [transformTileGroup_eval exTableAllDiff 0 1 exTG (by decide) rfl, if_neg hno]
  rfl

/-! ### C9/C10: row sampling -/

/-- C9 (evaluation at the failing input).  With `tuples_per_tilegroup = 2`
and a draw of row id `3`, the sampler fetches the header of the tile group
at offset `3 / 2 = 1` but passes the *whole row id* `3` as the tuple-slot
argument of `IsVisible` (data_table.cpp:1123), not the in-tile-group offset
`3 % 2 = 1` that the spec prescribes and that the very same function uses
when building the resulting `ItemPointer`s (data_table.cpp:1141-1142). -/
theorem sampleRows_passes_row_id_to_visibility :
    (sampleRows 2 4 exGen exVis 1 exSampleState).2.2 = [(1, 3)] ∧
    (3 : Nat) % 2 = 1 ∧
    ((1, 3) : Nat × Nat).2 ≠ (3 : Nat) % 2 := by
  decide

/-- C10.  Every `SampleRows` call replaces all previous sampling state: on
return with value `k` the stored optimizer sample holds exactly `k` item
pointers, the cardinality map is empty, and any previously materialized
sample tile group has been dropped from the catalog. -/
theorem sampleRows_resets_state (c total sample_size : Nat)
    (gen : Nat → Nat) (vis : Nat → Nat → Bool) (st : SampleState) :
    (sampleRows c total gen vis sample_size st).1.samples_for_optimizer.length =
      (sampleRows c total gen vis sample_size st).2.1 ∧
    (sampleRows c total gen vis sample_size st).1.cardinality_map = [] ∧
    ∀ id, st.sampled_tile_group_id = some id →
      id ∉ (sampleRows c total gen vis sample_size st).1.catalog_ids := by
  cases hs : st.sampled_tile_group_id with
  | none =>
    refine ⟨?_, ?_, ?_⟩
    · simp [sampleRows, hs]
    · simp [sampleRows, hs]
    · intro id hid
      cases hid
  | some id0 =>
    refine ⟨?_, ?_, ?_⟩
    · simp [sampleRows, hs]
    · simp [sampleRows, hs]
    · intro id hid
      obtain rfl : id0 = id := by injection hid
      simp [sampleRows, hs, List.mem_filter]

/-- Witness for C10 at a concrete stale state (old pointers, an old
cardinality map, a materialized sample tile group with id 9). -/
theorem sampleRows_resets_state_witness :
    exSampleState.sampled_tile_group_id = some 9 ∧
    ((sampleRows 2 4 exGen exVis 1 exSampleState).1.samples_for_optimizer.length =
      (sampleRows 2 4 exGen exVis 1 exSampleState).2.1 ∧
     (sampleRows 2 4 exGen exVis 1 exSampleState).1.cardinality_map = [] ∧
     ∀ id, exSampleState.sampled_tile_group_id = some id →
       id ∉ (sampleRows 2 4 exGen exVis 1 exSampleState).1.catalog_ids) :=
  ⟨rfl, sampleRows_resets_state 2 4 1 exGen exVis exSampleState⟩

end Storage

namespace Optimizer

/-! ### C6: the `Leaf` pattern -/

/-- C6 (amended).  Over any group with at least one item, a
`GroupBindingIterator` with a `Leaf` pattern has `has_next` true exactly
once: the run to exhaustion yields exactly the one-node plan
`LeafOperator(gid)` and terminates, for every fuel ≥ 2 (two
`HasNext` calls). -/
theorem groupRun_leaf_once (m : Memo) (ps : List Pattern) (gid : GroupID)
    (h : 0 < (m.items gid).length) :
    ∀ fuel, 2 ≤ fuel →
      groupRun (Pattern.mk OpType.leaf ps) m gid fuel =
        ([OpPlanNode.node (.leafOperator gid) []], true) := by
  intro fuel hfuel
  obtain ⟨f, rfl⟩ : ∃ f, fuel = f + 2 := ⟨fuel - 2, by omega⟩
  have hne : ¬ (m.items gid).length = 0 := by omega
  rw [groupRun, if_pos rfl, leafRunAux, if_pos rfl, leafRunAux, if_neg hne]

/-- Witness for C6's amended theorem: the two-item group 1 of the example
memo, fuel 2. -/
theorem groupRun_leaf_once_witness :
    0 < (exMemoJoin.items 1).length ∧ 2 ≤ 2 ∧
    groupRun (Pattern.mk OpType.leaf []) exMemoJoin 1 2 =
      ([OpPlanNode.node (.leafOperator 1) []], true) :=
  ⟨by decide, le_refl 2,
    groupRun_leaf_once exMemoJoin [] 1 (by decide) 2 (le_refl 2)⟩

/-- Counterexample to C6 as stated: over a group with *zero* items,
`Next()` sets `current_item_index` to `0`, so `has_next` is true again
after the first `next`; three driver rounds yield the leaf plan three
times and the iterator never exhausts, contradicting "has_next() returns
true exactly once ... after that first next(), has_next() returns false
forever" for the empty group the claim explicitly includes. -/
theorem groupRun_leaf_empty_counterexample :
    groupRun (Pattern.mk OpType.leaf []) exMemoEmpty 0 3 =
      ([OpPlanNode.node (.leafOperator 0) [], OpPlanNode.node (.leafOperator 0) [],
        OpPlanNode.node (.leafOperator 0) []], false) := by
  rw [groupRun, if_pos rfl]
  rfl

/-! ### C4/C5: the constructor's exploration loop -/

theorem getD_set_self {α : Type} :
    ∀ (l : List α) (n : Nat) (a d : α), n < l.length →
    (l.set n a).getD n d = a := by
  intro l
  induction l with
  | nil => intro n a d h; simp at h
  | cons x xs ih =>
    intro n a d h
    cases n with
    | zero => rfl
    | succ n => exact ih n a d (by simpa using h)

theorem getD_set_ne {α : Type} :
    ∀ (l : List α) (n j : Nat) (a d : α), n ≠ j →
    (l.set n a).getD j d = l.getD j d := by
  intro l
  induction l with
  | nil => intro n j a d _; rfl
  | cons x xs ih =>
    intro n j a d h
    cases n with
    | zero =>
      cases j with
      | zero => exact absurd rfl h
      | succ j => rfl
    | succ n =>
      cases j with
      | zero => rfl
      | succ j => exact ih n j a d (fun he => h (by rw [he]))

/-- A flag read as `true` through `getD _ false` is within range. -/
theorem getD_true_lt {l : List Bool} {j : Nat} (h : l.getD j false = true) :
    j < l.length := by
  by_contra hc
  rw [List.getD_eq_default _ _ (by omega)] at h
  cases h

theorem updateGroup_groups_length (m : Memo) (gid : GroupID) (f : Group → Group) :
    (m.updateGroup gid f).groups.length = m.groups.length := by
  simp [Memo.updateGroup]

theorem updateGroup_group_self (m : Memo) (gid : GroupID) (f : Group → Group)
    (h : gid < m.groups.length) :
    (m.updateGroup gid f).group gid = f (m.group gid) := by
  simp only [Memo.updateGroup, Memo.group]
  rw [getD_set_self]
  simpa using h

theorem exploreItem_groups_length (m : Memo) (gid : GroupID) (i : Nat) (r : Rule) :
    (exploreItem m gid i r).groups.length = m.groups.length :=
  updateGroup_groups_length m gid _

theorem exploreItem_group_self (m : Memo) (gid : GroupID) (i : Nat) (r : Rule)
    (h : gid < m.groups.length) :
    ((exploreItem m gid i r).group gid).items =
      (m.group gid).items ++ r ((m.group gid).items.getD i (.logicalGet 0)) ∧
    ((exploreItem m gid i r).group gid).explored =
      (m.group gid).explored ++
        (r ((m.group gid).items.getD i (.logicalGet 0))).map (fun _ => false) := by
  unfold exploreItem
  rw [updateGroup_group_self m gid _ h]
  exact ⟨rfl, rfl⟩

/-- Applying all the rules to item `i` (the inner `for` of the
constructor, binding.cpp:106) only appends to the group: the group count,
the explored-length invariant and every already-set flag are preserved. -/
theorem foldl_exploreItem_props (gid : GroupID) (i : Nat) :
    ∀ (rules : List Rule) (m : Memo), gid < m.groups.length →
    ((m.group gid).explored.length = (m.group gid).items.length) →
    (rules.foldl (fun acc r => exploreItem acc gid i r) m).groups.length = m.groups.length ∧
    (((rules.foldl (fun acc r => exploreItem acc gid i r) m).group gid).explored.length =
      ((rules.foldl (fun acc r => exploreItem acc gid i r) m).group gid).items.length) ∧
    ∀ j, (m.group gid).explored.getD j false = true →
      ((rules.foldl (fun acc r => exploreItem acc gid i r) m).group gid).explored.getD j false = true := by
  intro rules
  induction rules with
  | nil => intro m hg hl; exact ⟨rfl, hl, fun _ h => h⟩
  | cons r rs ih =>
    intro m hg hl
    simp only [List.foldl_cons]
    obtain ⟨hitems, hexp⟩ := exploreItem_group_self m gid i r hg
    have hg2 : gid < (exploreItem m gid i r).groups.length := by
      rw [exploreItem_groups_length]; exact hg
    have hl2 : ((exploreItem m gid i r).group gid).explored.length =
        ((exploreItem m gid i r).group gid).items.length := by
      rw [hitems, hexp]
      simp [hl]
    obtain ⟨ha, hb, hc⟩ := ih (exploreItem m gid i r) hg2 hl2
    refine ⟨by rw [ha, exploreItem_groups_length], hb, ?_⟩
    intro j hj
    apply hc
    rw [hexp]
    rw [List.getD_append _ _ _ _ (getD_true_lt hj)]
    exact hj

/-- The loop invariant of the constructor's exploration loop: the group
count and the explored-length invariant are preserved, and whenever the
loop exits normally every item of the group — including any item appended
by exploration during the loop — has its explored flag set. -/
theorem exploreLoop_invariant (rules : List Rule) (gid : GroupID) :
    ∀ (fuel i : Nat) (m : Memo), gid < m.groups.length →
    ((m.group gid).explored.length = (m.group gid).items.length) →
    (∀ j < i, (m.group gid).explored.getD j false = true) →
    gid < (exploreLoop rules gid fuel i m).1.groups.length ∧
    (((exploreLoop rules gid fuel i m).1.group gid).explored.length =
      ((exploreLoop rules gid fuel i m).1.group gid).items.length) ∧
    ((exploreLoop rules gid fuel i m).2.2 = true →
      ∀ j < ((exploreLoop rules gid fuel i m).1.group gid).items.length,
        ((exploreLoop rules gid fuel i m).1.group gid).explored.getD j false = true) := by
  intro fuel
  induction fuel with
  | zero =>
    intro i m hg hl _
    exact ⟨hg, hl, fun h => by cases h⟩
  | succ fuel ih =>
    intro i m hg hl hinv
    rw [exploreLoop]
    by_cases hi : i < (m.group gid).items.length
    · rw [if_pos hi]
      by_cases hexp : (m.group gid).explored.getD i false = true
      · rw [if_pos hexp]
        exact ih (i + 1) m hg hl
          (fun j hj => by
            rcases Nat.lt_succ_iff_lt_or_eq.mp hj with h | h
            · exact hinv j h
            · rw [h]; exact hexp)
      · rw [if_neg hexp]
        have hg2 : gid < (m.updateGroup gid (fun g => g.setExplored i)).groups.length := by
          rw [updateGroup_groups_length]; exact hg
        have hset : ((m.updateGroup gid (fun g => g.setExplored i)).group gid).explored =
            (m.group gid).explored.set i true := by
          rw [updateGroup_group_self m gid _ hg]; rfl
        have hsetitems : ((m.updateGroup gid (fun g => g.setExplored i)).group gid).items =
            (m.group gid).items := by
          rw [updateGroup_group_self m gid _ hg]; rfl
        have hl2 : ((m.updateGroup gid (fun g => g.setExplored i)).group gid).explored.length =
            ((m.updateGroup gid (fun g => g.setExplored i)).group gid).items.length := by
          rw [hset, hsetitems, List.length_set]; exact hl
        obtain ⟨ha, hb, hc⟩ :=
          foldl_exploreItem_props gid i rules (m.updateGroup gid (fun g => g.setExplored i)) hg2 hl2
        have hg3 : gid < (rules.foldl
            (fun acc r => exploreItem acc gid i r)
            (m.updateGroup gid (fun g => g.setExplored i))).groups.length := by
          rw [ha]; exact hg2
        have hinv3 : ∀ j < i + 1,
            ((rules.foldl (fun acc r => exploreItem acc gid i r)
              (m.updateGroup gid (fun g => g.setExplored i))).group gid).explored.getD j false = true := by
          intro j hj
          apply hc
          rw [hset]
          rcases Nat.lt_succ_iff_lt_or_eq.mp hj with h | h
          · rw [getD_set_ne _ _ _ _ _ (by omega)]
            exact hinv j h
          · rw [h]
            rw [getD_set_self]
            rw [← hl] at hi
            exact hi
        obtain ⟨hA, hB, hC⟩ := ih (i + 1) _ hg3 hb hinv3
        exact ⟨hA, hB, hC⟩
    · rw [if_neg hi]
      refine ⟨hg, hl, fun _ j hj => ?_⟩
      have hj2 : j < (m.group gid).items.length := hj
      exact hinv j (by omega)

/-- C4 (amended theorem).  `target_group_items` is a live reference, so the
constructor's loop re-reads the item count every iteration: when the loop
terminates normally, *every* item then present in the group — including
every item appended by rule exploration during this very loop — has been
marked explored by this same constructor.  (Consequently a later iterator
over the group finds no unmarked items; the claim's "appended items are
not visited by this iterator and are picked up unmarked by the next one"
is wrong, see the counterexample.) -/
theorem exploreLoop_explores_appended_items (rules : List Rule) (gid : GroupID)
    (fuel : Nat) (m : Memo) (hg : gid < m.groups.length)
    (hl : (m.group gid).explored.length = (m.group gid).items.length)
    (hdone : (exploreLoop rules gid fuel 0 m).2.2 = true) :
    ∀ j < ((exploreLoop rules gid fuel 0 m).1.group gid).items.length,
      ((exploreLoop rules gid fuel 0 m).1.group gid).explored.getD j false = true :=
  (exploreLoop_invariant rules gid fuel 0 m hg hl (fun j hj => absurd hj (by omega))).2.2 hdone

/-- Witness for C4's amended theorem: the `Filter(g1)` memo with the
appending rule; the loop terminates with both items (the original and the
appended one) explored. -/
theorem exploreLoop_explores_appended_items_witness :
    (0 < exMemoExplore.groups.length ∧
     (exMemoExplore.group 0).explored.length = (exMemoExplore.group 0).items.length ∧
     (exploreLoop [exRule] 0 3 0 exMemoExplore).2.2 = true) ∧
    ∀ j < ((exploreLoop [exRule] 0 3 0 exMemoExplore).1.group 0).items.length,
      ((exploreLoop [exRule] 0 3 0 exMemoExplore).1.group 0).explored.getD j false = true :=
  ⟨⟨by decide, by decide, by decide⟩,
    exploreLoop_explores_appended_items [exRule] 0 3 exMemoExplore
      (by decide) (by decide) (by decide)⟩

/-- Counterexample to C4 as stated: exploring the single unexplored item
`Filter(g1)` appends `Get 7` to the same group; the constructor's loop
*does* visit the appended item — the invocation trace is `[0, 1]`, and the
final flags are `[true, true]`, so the appended item is neither skipped by
this iterator nor left unmarked for the next one. -/
theorem exploreLoop_visits_appended_item :
    exploreLoop [exRule] 0 3 0 exMemoExplore = (exMemoExploreOut, [0, 1], true) := by
  decide

/-- When every item of the group is already marked explored, the
constructor's loop invokes no rule, changes nothing and exits normally
(`items.length - i + 1` fuel suffices). -/
theorem exploreLoop_all_explored (rules : List Rule) (gid : GroupID) :
    ∀ (fuel i : Nat) (m : Memo),
    (∀ j < (m.group gid).items.length, (m.group gid).explored.getD j false = true) →
    (m.group gid).items.length + 1 ≤ fuel + i → 1 ≤ fuel →
    exploreLoop rules gid fuel i m = (m, [], true) := by
  intro fuel
  induction fuel with
  | zero => intro i m _ _ h1; omega
  | succ fuel ih =>
    intro i m hall hf _
    rw [exploreLoop]
    by_cases hi : i < (m.group gid).items.length
    · rw [if_pos hi, if_pos (hall i hi)]
      exact ih (i + 1) m hall (by omega) (by omega)
    · rw [if_neg hi]

/-- C5.  Rule exploration is at-most-once per `(group, item)`: items with
the explored flag set trigger no rule invocation, so a *second*
construction of a `GroupBindingIterator` over a group whose first
construction ran to completion applies no rule (empty invocation trace),
leaves the memo unchanged — and therefore yields the same set of plans
over the unchanged memo. -/
theorem exploreLoop_idempotent (rules : List Rule) (gid : GroupID)
    (fuel fuel2 : Nat) (m : Memo)
    (hg : gid < m.groups.length)
    (hl : (m.group gid).explored.length = (m.group gid).items.length)
    (hdone : (exploreLoop rules gid fuel 0 m).2.2 = true)
    (hfuel2 : ((exploreLoop rules gid fuel 0 m).1.group gid).items.length + 1 ≤ fuel2) :
    exploreLoop rules gid fuel2 0 (exploreLoop rules gid fuel 0 m).1 =
      ((exploreLoop rules gid fuel 0 m).1, [], true) ∧
    ∀ (p : Pattern) (g2 : GroupID),
      groupBindings p (exploreLoop rules gid fuel2 0 (exploreLoop rules gid fuel 0 m).1).1 g2 =
        groupBindings p (exploreLoop rules gid fuel 0 m).1 g2 := by
  have hall :=
    (exploreLoop_invariant rules gid fuel 0 m hg hl
      (fun j hj => absurd hj (by omega))).2.2 hdone
  have hmain := exploreLoop_all_explored rules gid fuel2 0
    (exploreLoop rules gid fuel 0 m).1 hall (by omega) (by omega)
  refine ⟨hmain, ?_⟩
  intro p g2
  rw [hmain]

/-- Witness for C5: the `Filter(g1)` memo; the first construction explores
both items (including the appended one), the second applies no rule and
returns the memo unchanged. -/
theorem exploreLoop_idempotent_witness :
    (0 < exMemoExplore.groups.length ∧
     (exMemoExplore.group 0).explored.length = (exMemoExplore.group 0).items.length ∧
     (exploreLoop [exRule] 0 3 0 exMemoExplore).2.2 = true ∧
     ((exploreLoop [exRule] 0 3 0 exMemoExplore).1.group 0).items.length + 1 ≤ 3) ∧
    (exploreLoop [exRule] 0 3 0 (exploreLoop [exRule] 0 3 0 exMemoExplore).1 =
      ((exploreLoop [exRule] 0 3 0 exMemoExplore).1, [], true) ∧
     ∀ (p : Pattern) (g2 : GroupID),
       groupBindings p (exploreLoop [exRule] 0 3 0 (exploreLoop [exRule] 0 3 0 exMemoExplore).1).1 g2 =
         groupBindings p (exploreLoop [exRule] 0 3 0 exMemoExplore).1 g2) :=
  ⟨⟨by decide, by decide, by decide, by decide⟩,
    exploreLoop_idempotent [exRule] 0 3 3 exMemoExplore
      (by decide) (by decide) (by decide) (by decide)⟩

/-! ### The cartesian product in odometer order -/

theorem map_getD_range {α : Type} (d : α) :
    ∀ (l : List α), (List.range l.length).map (fun i => l.getD i d) = l := by
  intro l
  induction l with
  | nil => rfl
  | cons x xs ih =>
    rw [List.length_cons, List.range_succ_eq_map]
    simp only [List.map_cons, List.map_map]
    refine congrArg₂ (· :: ·) rfl ?_
    have hco : ((fun i => (x :: xs).getD i d) ∘ Nat.succ) = (fun i => xs.getD i d) := rfl
    rw [hco, ih]

theorem sel_zeros :
    ∀ ls : List (List OpPlanNode),
    sel ls (ls.map (fun _ => 0)) = ls.map (fun l => l.getD 0 dfltPlan) := by
  intro ls
  induction ls with
  | nil => rfl
  | cons l ls ih =>
    simp only [List.map_cons, sel, List.zipWith_cons_cons]
    refine congrArg₂ (· :: ·) rfl ?_
    exact ih

theorem prodAll_eq_odoIndices :
    ∀ ls : List (List OpPlanNode),
    prodAll ls = (odoIndices (ls.map List.length)).map (sel ls) := by
  intro ls
  induction ls with
  | nil => rfl
  | cons l ls ih =>
    simp only [prodAll, odoIndices, List.map_cons]
    calc l.flatMap (fun x => (prodAll ls).map (fun xs => x :: xs))
        = ((List.range l.length).map (fun i => l.getD i dfltPlan)).flatMap
            (fun x => (prodAll ls).map (fun xs => x :: xs)) := by
          rw [map_getD_range]
      _ = (List.range l.length).flatMap
            (fun i => (prodAll ls).map (fun xs => l.getD i dfltPlan :: xs)) := by
          rw [List.flatMap_map]
      _ = (List.range l.length).flatMap
            (fun i => ((odoIndices (ls.map List.length)).map (sel ls)).map
              (fun xs => l.getD i dfltPlan :: xs)) := by
          rw [ih]
      _ = (List.range l.length).flatMap
            (fun i => (odoIndices (ls.map List.length)).map
              (fun ix => sel (l :: ls) (i :: ix))) := by
          simp only [List.map_map]
          rfl
      _ = ((List.range l.length).flatMap
            (fun i => (odoIndices (ls.map List.length)).map (fun ix => i :: ix))).map
            (sel (l :: ls)) := by
          rw [List.map_flatMap]
          simp only [List.map_map]
          rfl

theorem prodAll_length :
    ∀ ls : List (List OpPlanNode),
    (prodAll ls).length = (ls.map List.length).prod := by
  intro ls
  induction ls with
  | nil => rfl
  | cons l ls ih =>
    simp only [prodAll, List.map_cons, List.prod_cons, List.length_flatMap]
    have hc : (List.length ∘ fun x : OpPlanNode => List.map (fun xs => x :: xs) (prodAll ls)) =
        fun _ => (prodAll ls).length := by
      funext x
      simp
    rw [hc, List.map_const', List.sum_replicate, smul_eq_mul, ih]

theorem prodAll_mem :
    ∀ (ls : List (List OpPlanNode)) (cs : List OpPlanNode),
    cs ∈ prodAll ls ↔ List.Forall₂ (fun c l => c ∈ l) cs ls := by
  intro ls
  induction ls with
  | nil =>
    intro cs
    simp only [prodAll, List.mem_singleton, List.forall₂_nil_right_iff]
  | cons l ls ih =>
    intro cs
    simp only [prodAll, List.mem_flatMap, List.mem_map]
    constructor
    · rintro ⟨x, hx, ds, hds, rfl⟩
      exact List.Forall₂.cons hx ((ih ds).mp hds)
    · intro h
      cases h with
      | cons hx hds => exact ⟨_, hx, _, (ih _).mpr hds, rfl⟩

theorem prodAll_nodup :
    ∀ ls : List (List OpPlanNode), (∀ l ∈ ls, l.Nodup) → (prodAll ls).Nodup := by
  intro ls
  induction ls with
  | nil => intro _; simp [prodAll]
  | cons l ls ih =>
    intro h
    have hl : l.Nodup := h l (List.mem_cons_self _ _)
    have hls : (prodAll ls).Nodup := ih (fun x hx => h x (List.mem_cons_of_mem _ hx))
    simp only [prodAll]
    rw [List.nodup_flatMap]
    constructor
    · intro x _
      exact hls.map (fun a b hab => by injection hab)
    · refine List.Pairwise.imp ?_ hl
      intro a b hab
      intro cs hca hcb
      obtain ⟨_, _, rfl⟩ := List.mem_map.mp hca
      obtain ⟨_, _, he⟩ := List.mem_map.mp hcb
      injection he with h1 _
      exact hab (by rw [h1])

theorem mem_zipWith {α β γ : Type} (f : α → β → γ) :
    ∀ (as : List α) (bs : List β) (x : γ), x ∈ List.zipWith f as bs →
    ∃ a ∈ as, ∃ b ∈ bs, x = f a b := by
  intro as
  induction as with
  | nil => intro bs x h; simp at h
  | cons a as ih =>
    intro bs x h
    cases bs with
    | nil => simp at h
    | cons b bs =>
      rw [List.zipWith_cons_cons] at h
      rcases List.mem_cons.mp h with h | h
      · exact ⟨a, List.mem_cons_self _ _, b, List.mem_cons_self _ _, h⟩
      · obtain ⟨a2, ha2, b2, hb2, he⟩ := ih bs x h
        exact ⟨a2, List.mem_cons_of_mem _ ha2, b2, List.mem_cons_of_mem _ hb2, he⟩

theorem prodAll_of_empty_component :
    ∀ ls : List (List OpPlanNode), ([] : List OpPlanNode) ∈ ls → prodAll ls = [] := by
  intro ls
  induction ls with
  | nil => intro h; simp at h
  | cons l ls ih =>
    intro h
    rcases List.mem_cons.mp h with h | h
    · rw [prodAll, ← h]
      rfl
    · rw [prodAll, ih h]
      simp

/-! ### The odometer step -/

theorem OdoInv_zeros {ls : List (List OpPlanNode)} {ps : List Nat}
    (h : OdoInv ls ps) : OdoInv ls (ls.map (fun _ => 0)) := by
  induction h with
  | nil => exact List.Forall₂.nil
  | cons hp _ ih =>
    exact List.Forall₂.cons (Nat.lt_of_le_of_lt (Nat.zero_le _) hp) ih

theorem OdoInv_ne_nil {ls : List (List OpPlanNode)} {ps : List Nat}
    (h : OdoInv ls ps) : ∀ l ∈ ls, l ≠ [] := by
  induction h with
  | nil => intro l hl; simp at hl
  | cons hp _ ih =>
    intro x hx
    rcases List.mem_cons.mp hx with h2 | h2
    · subst h2
      intro he
      rw [he] at hp
      simp at hp
    · exact ih x h2

theorem tuplesFrom_ne_nil {ls : List (List OpPlanNode)} {ps : List Nat}
    (h : OdoInv ls ps) : tuplesFrom ls ps ≠ [] := by
  induction h with
  | nil => simp [tuplesFrom]
  | cons hp hps ih =>
    simp only [tuplesFrom]
    intro hcon
    rcases List.append_eq_nil.mp hcon with ⟨h1, _⟩
    exact ih (List.map_eq_nil_iff.mp h1)

theorem tuplesFrom_zeros :
    ∀ ls : List (List OpPlanNode), (∀ l ∈ ls, l ≠ []) →
    tuplesFrom ls (ls.map (fun _ => 0)) = prodAll ls := by
  intro ls
  induction ls with
  | nil => intro _; rfl
  | cons l ls ih =>
    intro h
    have hlne : l ≠ [] := h l (List.mem_cons_self _ _)
    have h0 : 0 < l.length := List.length_pos.mpr hlne
    have hl0 : l = l.getD 0 dfltPlan :: l.drop 1 := by
      have hd := List.drop_eq_getElem_cons h0
      rw [List.drop_zero] at hd
      rw [List.getD_eq_getElem l dfltPlan h0]
      exact hd
    simp only [List.map_cons, tuplesFrom]
    rw [ih (fun x hx => h x (List.mem_cons_of_mem _ hx))]
    conv_rhs => rw [prodAll, hl0, List.flatMap_cons]

theorem odoStepRev_cons (l : List OpPlanNode) (ls : List (List OpPlanNode))
    (p : Nat) (ps : List Nat) (c : OpPlanNode) (cs : List OpPlanNode) :
    odoStepRev (l :: ls) (p :: ps) (c :: cs) =
      if p + 1 < l.length then
        some ((p + 1) :: ps, l.getD (p + 1) dfltPlan :: cs)
      else
        match odoStepRev ls ps cs with
        | some pc => some (0 :: pc.1, l.getD 0 dfltPlan :: pc.2)
        | none => none := rfl

theorem odoStepRev_append :
    ∀ (ys : List (List OpPlanNode)) (qs : List Nat) (bs : List OpPlanNode)
      (l : List OpPlanNode) (p : Nat) (c : OpPlanNode),
    ys.length = qs.length → ys.length = bs.length →
    odoStepRev (ys ++ [l]) (qs ++ [p]) (bs ++ [c]) =
      (match odoStepRev ys qs bs with
       | some pc => some (pc.1 ++ [p], pc.2 ++ [c])
       | none =>
         if p + 1 < l.length then
           some (ys.map (fun _ => 0) ++ [p + 1],
                 ys.map (fun y => y.getD 0 dfltPlan) ++ [l.getD (p + 1) dfltPlan])
         else none) := by
  intro ys
  induction ys with
  | nil =>
    intro qs bs l p c hq hb
    obtain rfl : qs = [] := List.length_eq_zero.mp hq.symm
    obtain rfl : bs = [] := List.length_eq_zero.mp hb.symm
    simp only [List.nil_append, List.map_nil]
    rw [odoStepRev_cons]
    by_cases h : p + 1 < l.length
    · simp only [if_pos h]
      rfl
    · simp only [if_neg h]
      rfl
  | cons y ys ih =>
    intro qs bs l p c hq hb
    cases qs with
    | nil => simp at hq
    | cons q qs =>
      cases bs with
      | nil => simp at hb
      | cons b bs =>
        have hq2 : ys.length = qs.length := by simpa using hq
        have hb2 : ys.length = bs.length := by simpa using hb
        simp only [List.cons_append]
        rw [odoStepRev_cons, odoStepRev_cons]
        by_cases h : q + 1 < y.length
        · simp only [if_pos h]
          rfl
        · simp only [if_neg h]
          rw [ih qs bs l p c hq2 hb2]
          rcases hrec : odoStepRev ys qs bs with _ | pc
          · simp only []
            by_cases hpl : p + 1 < l.length
            · simp only [if_pos hpl, List.map_cons, List.cons_append]
            · simp only [if_neg hpl]
          · simp only [List.cons_append]

theorem odoStep_cons (l : List OpPlanNode) (ls : List (List OpPlanNode))
    (p : Nat) (ps : List Nat) (c : OpPlanNode) (cs : List OpPlanNode)
    (hq : ls.length = ps.length) (hb : ls.length = cs.length) :
    odoStep (l :: ls) (p :: ps) (c :: cs) =
      (match odoStep ls ps cs with
       | some pc => some (p :: pc.1, c :: pc.2)
       | none =>
         if p + 1 < l.length then
           some ((p + 1) :: ls.map (fun _ => 0),
                 l.getD (p + 1) dfltPlan :: ls.map (fun y => y.getD 0 dfltPlan))
         else none) := by
  unfold odoStep
  rw [List.reverse_cons, List.reverse_cons, List.reverse_cons,
    odoStepRev_append ls.reverse ps.reverse cs.reverse l p c
      (by simp [hq]) (by simp [hb])]
  rcases hrec : odoStepRev ls.reverse ps.reverse cs.reverse with _ | pc
  · simp only []
    by_cases hpl : p + 1 < l.length
    · simp only [if_pos hpl, List.reverse_append, List.reverse_singleton,
        List.singleton_append, List.map_reverse, List.reverse_reverse,
        List.reverse_cons]
      simp
    · simp only [if_neg hpl]
  · simp only [List.reverse_append, List.reverse_singleton,
      List.singleton_append, List.reverse_cons]
    simp

theorem sel_cons (l : List OpPlanNode) (ls : List (List OpPlanNode))
    (p : Nat) (ps : List Nat) :
    sel (l :: ls) (p :: ps) = l.getD p dfltPlan :: sel ls ps := rfl

theorem sel_length (ls : List (List OpPlanNode)) (ps : List Nat)
    (h : ls.length = ps.length) : (sel ls ps).length = ls.length := by
  simp [sel, List.length_zipWith, h]

/-- One odometer advance from the current position: either every position
overflows (`has_next` goes false) and the current combination was the last
one, or the machine moves to position `ps2` whose replayed child stack is
exactly the selection at `ps2`, and the product suffix decomposes
accordingly. -/
theorem odoStep_sel :
    ∀ (ls : List (List OpPlanNode)) (ps : List Nat), OdoInv ls ps →
    (odoStep ls ps (sel ls ps) = none ∧ tuplesFrom ls ps = [sel ls ps]) ∨
    (∃ ps2, odoStep ls ps (sel ls ps) = some (ps2, sel ls ps2) ∧ OdoInv ls ps2 ∧
      tuplesFrom ls ps = sel ls ps :: tuplesFrom ls ps2) := by
  intro ls
  induction ls with
  | nil =>
    intro ps h
    cases h
    left
    exact ⟨rfl, rfl⟩
  | cons l ls ih =>
    intro ps h
    cases h with
    | @cons _ p _ ps2 hp hps =>
      have hlen : ls.length = ps2.length := hps.length_eq
      rw [sel_cons]
      rw [odoStep_cons l ls p ps2 _ _ hlen (sel_length ls ps2 hlen).symm]
      rcases ih ps2 hps with ⟨hnone, htp⟩ | ⟨qs2, hsome, hinv2, htp⟩
      · rw [hnone]
        simp only []
        by_cases hpl : p + 1 < l.length
        · right
          refine ⟨(p + 1) :: ls.map (fun _ => 0), ?_, ?_, ?_⟩
          · simp only [if_pos hpl, sel_cons, sel_zeros]
          · exact List.Forall₂.cons hpl (OdoInv_zeros hps)
          · have hnn := OdoInv_ne_nil hps
            have hdrop : l.drop (p + 1) = l.getD (p + 1) dfltPlan :: l.drop (p + 2) := by
              rw [List.getD_eq_getElem l dfltPlan hpl]
              exact List.drop_eq_getElem_cons hpl
            simp only [tuplesFrom]
            rw [htp, hdrop, List.flatMap_cons, tuplesFrom_zeros ls hnn]
            simp only [List.map_cons, List.map_nil, List.singleton_append,
              List.cons_append, sel_cons]
            rfl
        · left
          refine ⟨by simp only [if_neg hpl], ?_⟩
          simp only [tuplesFrom]
          rw [htp, List.drop_eq_nil_of_le (by omega)]
          simp
      · right
        rw [hsome]
        refine ⟨p :: qs2, ?_, List.Forall₂.cons hp hinv2, ?_⟩
        · simp only [sel_cons]
        · simp only [tuplesFrom]
          rw [htp]
          simp only [List.map_cons, List.cons_append, sel_cons]

/-- Under the odometer invariant the product suffix starts with the
current selection. -/
theorem tuplesFrom_eq_cons {ls : List (List OpPlanNode)} {ps : List Nat}
    (h : OdoInv ls ps) :
    tuplesFrom ls ps = sel ls ps :: (tuplesFrom ls ps).drop 1 := by
  rcases odoStep_sel ls ps h with ⟨_, htp⟩ | ⟨ps2, _, _, htp⟩ <;> rw [htp] <;> rfl

/-- Running the odometer machine from a non-`first` state at position `ps`
yields the product suffix past the current combination. -/
theorem itemRunAux_from (op : Operator) (ls : List (List OpPlanNode)) :
    ∀ (fuel : Nat) (ps : List Nat), OdoInv ls ps →
    (tuplesFrom ls ps).length ≤ fuel →
    itemRunAux op ls fuel { first := false, pos := ps, cur := sel ls ps } =
      (((tuplesFrom ls ps).drop 1).map (fun cs => OpPlanNode.node op cs), true) := by
  intro fuel
  induction fuel with
  | zero =>
    intro ps hinv hlen
    exact absurd (List.length_eq_zero.mp (by omega)) (tuplesFrom_ne_nil hinv)
  | succ fuel ih =>
    intro ps hinv hlen
    rw [itemRunAux]
    rw [if_neg (by exact Bool.false_ne_true)]
    rcases odoStep_sel ls ps hinv with ⟨hnone, htp⟩ | ⟨ps2, hsome, hinv2, htp⟩
    · rw [hnone, htp]
      rfl
    · rw [hsome]
      have hlen2 : (tuplesFrom ls ps2).length ≤ fuel := by
        have := congrArg List.length htp
        simp only [List.length_cons] at this
        omega
      show (OpPlanNode.node op (sel ls ps2) ::
            (itemRunAux op ls fuel { first := false, pos := ps2, cur := sel ls ps2 }).1,
            (itemRunAux op ls fuel { first := false, pos := ps2, cur := sel ls ps2 }).2) = _
      rw [ih ps2 hinv2 hlen2, htp]
      simp only [List.drop_succ_cons, List.drop_zero]
      conv_rhs => rw [tuplesFrom_eq_cons hinv2]
      simp only [List.map_cons]

/-- Running the odometer machine from the freshly-constructed state (the
`first` flag set, all positions zero are a special case) yields the whole
product suffix. -/
theorem itemRunAux_run (op : Operator) (ls : List (List OpPlanNode))
    (ps : List Nat) (fuel : Nat) (hinv : OdoInv ls ps)
    (hf : (tuplesFrom ls ps).length + 1 ≤ fuel) :
    itemRunAux op ls fuel { first := true, pos := ps, cur := sel ls ps } =
      ((tuplesFrom ls ps).map (fun cs => OpPlanNode.node op cs), true) := by
  obtain ⟨f, rfl⟩ : ∃ f, fuel = f + 1 := ⟨fuel - 1, by omega⟩
  rw [itemRunAux]
  rw [if_pos rfl]
  rw [itemRunAux_from op ls f ps hinv (by omega)]
  conv_rhs => rw [tuplesFrom_eq_cons hinv]
  simp only [List.map_cons]

/-! ### C3: the item iterator enumerates the odometer product -/

theorem OdoInv_zeros_of_ne_nil :
    ∀ ls : List (List OpPlanNode), (∀ l ∈ ls, l ≠ []) →
    OdoInv ls (ls.map (fun _ => 0)) := by
  intro ls
  induction ls with
  | nil => intro _; exact List.Forall₂.nil
  | cons l ls ih =>
    intro h
    exact List.Forall₂.cons
      (List.length_pos.mpr (h l (List.mem_cons_self _ _)))
      (ih (fun x hx => h x (List.mem_cons_of_mem _ hx)))

/-- The `ItemBindingIterator` run, characterized with the product in
`prodAll` form: with all child runs exhausted, if every child yielded at
least one binding the run yields the odometer product of the child binding
lists under the item's operator; if some child yielded nothing, it yields
nothing. -/
theorem itemIterRun_spec (op : Operator) (t : OpType) (n : Nat)
    (childRuns : List (List OpPlanNode × Bool)) (fuel : Nat)
    (hop : op.opType = t)
    (harity : op.children.length = n)
    (hex : childRuns.any (fun r => !r.2) = false)
    (hfuel : (prodAll (childRuns.map Prod.fst)).length + 1 ≤ fuel) :
    ((∀ r ∈ childRuns, r.1 ≠ []) →
      itemIterRun op t n childRuns fuel =
        ((prodAll (childRuns.map Prod.fst)).map (fun cs => OpPlanNode.node op cs), true)) ∧
    ((∃ r ∈ childRuns, r.1 = []) → itemIterRun op t n childRuns fuel = ([], true)) := by
  constructor
  · intro hne
    have hanyempty : ((childRuns.map Prod.fst).any List.isEmpty) = false := by
      rw [List.any_eq_false]
      intro l hl
      obtain ⟨r, hr, rfl⟩ := List.mem_map.mp hl
      simp only [List.isEmpty_iff]
      exact hne r hr
    have hnn : ∀ l ∈ childRuns.map Prod.fst, l ≠ [] := by
      intro l hl
      obtain ⟨r, hr, rfl⟩ := List.mem_map.mp hl
      exact hne r hr
    unfold itemIterRun
    rw [if_neg (by simp [hop]), if_neg (by simp [harity]),
      if_neg (by simp [hex]), if_neg (by simp [hanyempty])]
    rw [show (childRuns.map Prod.fst).map (fun l => l.getD 0 dfltPlan) =
        sel (childRuns.map Prod.fst) ((childRuns.map Prod.fst).map (fun _ => 0)) from
        (sel_zeros _).symm]
    rw [itemRunAux_run op _ _ fuel (OdoInv_zeros_of_ne_nil _ hnn)
      (by rw [tuplesFrom_zeros _ hnn]; exact hfuel)]
    rw [tuplesFrom_zeros _ hnn]
  · rintro ⟨r, hr, hre⟩
    unfold itemIterRun
    rw [if_neg (by simp [hop]), if_neg (by simp [harity]),
      if_neg (by simp [hex]),
      if_pos (by
        rw [List.any_eq_true]
        exact ⟨r.1, List.mem_map_of_mem _ hr, by simp [hre]⟩)]

/-- C3.  For an item whose operator type equals the pattern's root type and
whose child-group count equals the pattern's child count, given the
materialized child runs (all exhausted): if every child yielded at least
one binding, the `ItemBindingIterator` yields exactly the plans indexed by
the mixed-radix odometer count sequence over the child binding counts
(rightmost position incrementing first, carrying on overflow), whose number
is the product of the child binding counts; if some child yielded no
binding, it yields nothing. -/
theorem itemIterRun_odometer_product (op : Operator) (t : OpType) (n : Nat)
    (childRuns : List (List OpPlanNode × Bool)) (fuel : Nat)
    (hop : op.opType = t)
    (harity : op.children.length = n)
    (hex : childRuns.any (fun r => !r.2) = false)
    (hfuel : (prodAll (childRuns.map Prod.fst)).length + 1 ≤ fuel) :
    ((∀ r ∈ childRuns, r.1 ≠ []) →
      itemIterRun op t n childRuns fuel =
        ((odoIndices ((childRuns.map Prod.fst).map List.length)).map
          (fun ix => OpPlanNode.node op (sel (childRuns.map Prod.fst) ix)), true) ∧
      (prodAll (childRuns.map Prod.fst)).length =
        ((childRuns.map Prod.fst).map List.length).prod) ∧
    ((∃ r ∈ childRuns, r.1 = []) → itemIterRun op t n childRuns fuel = ([], true)) := by
  obtain ⟨h1, h2⟩ := itemIterRun_spec op t n childRuns fuel hop harity hex hfuel
  refine ⟨fun hne => ⟨?_, prodAll_length _⟩, h2⟩
  rw [h1 hne, prodAll_eq_odoIndices]
  simp only [List.map_map]
  rfl

/-- Witness for C3 at the S5 shape: child binding lists of sizes 2 and 3
under an `InnerJoin` item; the odometer order over sizes `[2, 3]` is
`(0,0),(0,1),(0,2),(1,0),(1,1),(1,2)` and 6 plans are yielded. -/
theorem itemIterRun_odometer_product_witness :
    ((Operator.logicalInnerJoin 1 2).opType = OpType.innerJoin ∧
     (Operator.logicalInnerJoin 1 2).children.length = 2 ∧
     exChildRuns.any (fun r => !r.2) = false ∧
     (prodAll (exChildRuns.map Prod.fst)).length + 1 ≤ 8 ∧
     odoIndices ((exChildRuns.map Prod.fst).map List.length) =
       [[0, 0], [0, 1], [0, 2], [1, 0], [1, 1], [1, 2]]) ∧
    ((∀ r ∈ exChildRuns, r.1 ≠ []) →
      itemIterRun (Operator.logicalInnerJoin 1 2) OpType.innerJoin 2 exChildRuns 8 =
        ((odoIndices ((exChildRuns.map Prod.fst).map List.length)).map
          (fun ix => OpPlanNode.node (Operator.logicalInnerJoin 1 2)
            (sel (exChildRuns.map Prod.fst) ix)), true) ∧
      (prodAll (exChildRuns.map Prod.fst)).length =
        ((exChildRuns.map Prod.fst).map List.length).prod) ∧
    ((∃ r ∈ exChildRuns, r.1 = []) →
      itemIterRun (Operator.logicalInnerJoin 1 2) OpType.innerJoin 2 exChildRuns 8 = ([], true)) :=
  ⟨⟨rfl, rfl, by decide, by decide, by decide⟩,
    itemIterRun_odometer_product (Operator.logicalInnerJoin 1 2) OpType.innerJoin 2
      exChildRuns 8 rfl rfl (by decide) (by decide)⟩

/-! ### C2: the full enumeration -/

theorem leafRunAux_two (gid : GroupID) (n fuel : Nat) (hn : n ≠ 0)
    (hf : 2 ≤ fuel) :
    leafRunAux gid n fuel 0 = ([OpPlanNode.node (.leafOperator gid) []], true) := by
  obtain ⟨f, rfl⟩ : ∃ f, fuel = f + 2 := ⟨fuel - 2, by omega⟩
  rw [leafRunAux, if_pos rfl, leafRunAux, if_neg hn]

theorem WF_group_eq {m : Memo} {gid : GroupID}
    (hgid : gid < m.groups.length) : m.group gid = m.groups[gid] := by
  simp only [Memo.group]
  exact List.getD_eq_getElem _ _ hgid

theorem WF_items_ne {m : Memo} (hwf : m.WF) {gid : GroupID}
    (hgid : gid < m.groups.length) : m.items gid ≠ [] := by
  have := (hwf m.groups[gid] (List.getElem_mem hgid)).1
  simpa [Memo.items, WF_group_eq hgid] using this

theorem WF_items_nodup {m : Memo} (hwf : m.WF) (gid : GroupID) :
    (m.items gid).Nodup := by
  by_cases hgid : gid < m.groups.length
  · have := (hwf m.groups[gid] (List.getElem_mem hgid)).2.1
    simpa [Memo.items, WF_group_eq hgid] using this
  · have : m.group gid = { items := [], explored := [] } := by
      simp only [Memo.group]
      exact List.getD_eq_default _ _ (Nat.le_of_not_lt hgid)
    simp [Memo.items, this]

theorem WF_children_lt {m : Memo} (hwf : m.WF) {gid : GroupID}
    (hgid : gid < m.groups.length) {op : Operator} (hop : op ∈ m.items gid)
    {cg : GroupID} (hcg : cg ∈ op.children) : cg < m.groups.length := by
  have h2 := (hwf m.groups[gid] (List.getElem_mem hgid)).2.2
  rw [Memo.items, WF_group_eq hgid] at hop
  exact h2 op hop cg hcg

theorem exists_bound_nat (P : Nat → Nat → Prop) :
    ∀ (L : Nat), (∀ g, g < L → ∃ N, ∀ fuel, N ≤ fuel → P g fuel) →
    ∃ N, ∀ g, g < L → ∀ fuel, N ≤ fuel → P g fuel := by
  intro L
  induction L with
  | zero => intro _; exact ⟨0, fun g hg => absurd hg (by omega)⟩
  | succ L ih =>
    intro h
    obtain ⟨N1, hN1⟩ := ih (fun g hg => h g (by omega))
    obtain ⟨N2, hN2⟩ := h L (by omega)
    refine ⟨max N1 N2, fun g hg fuel hfuel => ?_⟩
    by_cases hgL : g < L
    · exact hN1 g hgL fuel (le_trans (le_max_left _ _) hfuel)
    · have : g = L := by omega
      subst this
      exact hN2 fuel (le_trans (le_max_right _ _) hfuel)

theorem exists_bound_list {α : Type} (P : α → Nat → Prop) :
    ∀ (xs : List α), (∀ x ∈ xs, ∃ N, ∀ fuel, N ≤ fuel → P x fuel) →
    ∃ N, ∀ x ∈ xs, ∀ fuel, N ≤ fuel → P x fuel := by
  intro xs
  induction xs with
  | nil => intro _; exact ⟨0, fun x hx => absurd hx (List.not_mem_nil x)⟩
  | cons x xs ih =>
    intro h
    obtain ⟨N1, hN1⟩ := ih (fun y hy => h y (List.mem_cons_of_mem _ hy))
    obtain ⟨N2, hN2⟩ := h x (List.mem_cons_self _ _)
    refine ⟨max N1 N2, fun y hy fuel hfuel => ?_⟩
    rcases List.mem_cons.mp hy with rfl | hy2
    · exact hN2 fuel (le_trans (le_max_right _ _) hfuel)
    · exact hN1 y hy2 fuel (le_trans (le_max_left _ _) hfuel)

theorem le_foldr_max (xs : List Nat) : ∀ x ∈ xs, x ≤ xs.foldr max 0 := by
  induction xs with
  | nil => intro x hx; exact absurd hx (List.not_mem_nil x)
  | cons y ys ih =>
    intro x hx
    rcases List.mem_cons.mp hx with rfl | hx2
    · exact le_max_left _ _
    · exact le_trans (ih x hx2) (le_max_right _ _)

theorem zipWith_congr_mem {α β γ : Type} (f f2 : α → β → γ) :
    ∀ (as : List α) (bs : List β),
    (∀ a ∈ as, ∀ b ∈ bs, f a b = f2 a b) →
    List.zipWith f as bs = List.zipWith f2 as bs := by
  intro as
  induction as with
  | nil => intro bs _; rfl
  | cons a as ih =>
    intro bs h
    cases bs with
    | nil => rfl
    | cons b bs =>
      rw [List.zipWith_cons_cons, List.zipWith_cons_cons,
        h a (List.mem_cons_self _ _) b (List.mem_cons_self _ _),
        ih bs (fun x hx y hy =>
          h x (List.mem_cons_of_mem _ hx) y (List.mem_cons_of_mem _ hy))]

theorem zipWith_attach {γ : Type} (h : Pattern → GroupID → γ)
    (ps : List Pattern) (cgs : List GroupID) :
    List.zipWith (fun (q : {x // x ∈ ps}) g => h q.1 g) ps.attach cgs =
      List.zipWith h ps cgs := by
  have := List.zipWith_map_left ps.attach cgs Subtype.val h
  rw [List.attach_map_subtype_val] at this
  exact this.symm

/-- The non-`Leaf` case of `groupBindings`, with the internal `attach`
eliminated. -/
theorem groupBindings_nonleaf (m : Memo) (t : OpType) (ps : List Pattern)
    (gid : GroupID) (ht : ¬ t = OpType.leaf) :
    groupBindings (Pattern.mk t ps) m gid =
      (m.items gid).flatMap (fun op =>
        if op.opType = t ∧ op.children.length = ps.length then
          (prodAll (List.zipWith (fun q g => groupBindings q m g) ps op.children)).map
            (fun cs => OpPlanNode.node op cs)
        else []) := by
  rw [groupBindings, if_neg ht]
  have he : (fun op : Operator =>
      if op.opType = t ∧ op.children.length = ps.length then
        (prodAll (List.zipWith (fun (q : {x // x ∈ ps}) g => groupBindings q.1 m g)
          ps.attach op.children)).map (fun cs => OpPlanNode.node op cs)
      else []) = (fun op : Operator =>
      if op.opType = t ∧ op.children.length = ps.length then
        (prodAll (List.zipWith (fun q g => groupBindings q m g) ps op.children)).map
          (fun cs => OpPlanNode.node op cs)
      else []) := by
    funext op
    rw [zipWith_attach (fun q g => groupBindings q m g) ps op.children]
  rw [he]

/-- Walking the group's items from index `idx`, with every per-item run
exhausting to `F` of the item, yields the concatenation of the per-item
yields (binding.cpp:126-141 driven to exhaustion). -/
theorem groupItemsRun_flatten (m : Memo) (gid : GroupID) (t : OpType)
    (childFns : List (GroupID → Nat → List OpPlanNode × Bool)) (fuel : Nat)
    (F : Operator → List OpPlanNode)
    (hitem : ∀ j, j < (m.items gid).length →
      itemIterRun ((m.items gid).getD j (.logicalGet 0)) t childFns.length
        (List.zipWith (fun f g => f g fuel) childFns
          ((m.items gid).getD j (.logicalGet 0)).children) fuel =
        (F ((m.items gid).getD j (.logicalGet 0)), true)) :
    ∀ (n idx : Nat), (m.items gid).length - idx ≤ n →
    groupItemsRun m gid t childFns fuel idx =
      (((m.items gid).drop idx).flatMap F, true) := by
  intro n
  induction n with
  | zero =>
    intro idx hle
    rw [groupItemsRun, if_neg (by omega), List.drop_eq_nil_of_le (by omega)]
    rfl
  | succ n ih =>
    intro idx hle
    by_cases hidx : idx < (m.items gid).length
    · rw [groupItemsRun, if_pos hidx]
      simp only [hitem idx hidx, ih (idx + 1) (by omega)]
      have hdrop : (m.items gid).drop idx =
          (m.items gid).getD idx (.logicalGet 0) :: (m.items gid).drop (idx + 1) := by
        rw [List.getD_eq_getElem _ _ hidx]
        exact List.drop_eq_getElem_cons hidx
      rw [hdrop, List.flatMap_cons, if_pos trivial]
    · rw [groupItemsRun, if_neg hidx, List.drop_eq_nil_of_le (by omega)]
      rfl

/-- Over a well-formed memo, the fuelled run of a `GroupBindingIterator`
exhausts, for every sufficiently large fuel, to exactly the reference
enumeration `groupBindings` (the size bound `k` drives the recursion over
the pattern). -/
theorem groupRun_eq_groupBindings (m : Memo) (hwf : m.WF) :
    ∀ (k : Nat) (p : Pattern), sizeOf p ≤ k → ∀ (gid : GroupID),
    gid < m.groups.length →
    ∃ N, ∀ fuel, N ≤ fuel → groupRun p m gid fuel = (groupBindings p m gid, true) := by
  intro k
  induction k with
  | zero =>
    intro p hp
    cases p with
    | mk t ps =>
      simp only [Pattern.mk.sizeOf_spec] at hp
      omega
  | succ k ih =>
    intro p hp gid hgid
    cases p with
    | mk t ps =>
      by_cases ht : t = OpType.leaf
      · subst ht
        refine ⟨2, fun fuel hf => ?_⟩
        rw [groupRun, if_pos rfl, groupBindings, if_pos rfl]
        exact leafRunAux_two gid _ fuel
          (fun h0 => WF_items_ne hwf hgid (List.length_eq_zero.mp h0)) hf
      · have hch : ∀ q ∈ ps, ∃ N, ∀ fuel, N ≤ fuel →
            ∀ g, g < m.groups.length →
            groupRun q m g fuel = (groupBindings q m g, true) := by
          intro q hq
          have hsz : sizeOf q ≤ k := by
            have h1 := List.sizeOf_lt_of_mem hq
            simp only [Pattern.mk.sizeOf_spec] at hp
            omega
          obtain ⟨N, hN⟩ := exists_bound_nat
            (fun g fuel => groupRun q m g fuel = (groupBindings q m g, true))
            m.groups.length (fun g hg => ih q hsz g hg)
          exact ⟨N, fun fuel hf g hg => hN g hg fuel hf⟩
        obtain ⟨Nc, hNc⟩ := exists_bound_list _ ps hch
        refine ⟨max Nc (((m.items gid).map (fun op =>
          (prodAll (List.zipWith (fun q g => groupBindings q m g) ps op.children)).length + 1)).foldr max 0),
          fun fuel hfuel => ?_⟩
        have hfNc : Nc ≤ fuel := le_trans (le_max_left _ _) hfuel
        have hfM : (((m.items gid).map (fun op =>
            (prodAll (List.zipWith (fun q g => groupBindings q m g) ps op.children)).length + 1)).foldr max 0) ≤ fuel :=
          le_trans (le_max_right _ _) hfuel
        rw [groupRun, if_neg ht]
        have hlenCF : (ps.attach.map (fun q => groupRun q.1 m)).length = ps.length := by
          simp
        have hitem : ∀ j, j < (m.items gid).length →
            itemIterRun ((m.items gid).getD j (.logicalGet 0)) t
              (ps.attach.map (fun q => groupRun q.1 m)).length
              (List.zipWith (fun f g => f g fuel) (ps.attach.map (fun q => groupRun q.1 m))
                ((m.items gid).getD j (.logicalGet 0)).children) fuel =
            ((fun op : Operator =>
                if op.opType = t ∧ op.children.length = ps.length then
                  (prodAll (List.zipWith (fun q g => groupBindings q m g) ps op.children)).map
                    (fun cs => OpPlanNode.node op cs)
                else []) ((m.items gid).getD j (.logicalGet 0)), true) := by
          intro j hj
          set op := (m.items gid).getD j (.logicalGet 0) with hopdef
          have hmem : op ∈ m.items gid := by
            rw [hopdef, List.getD_eq_getElem _ _ hj]
            exact List.getElem_mem hj
          have hcr : List.zipWith (fun f g => f g fuel)
                (ps.attach.map (fun q => groupRun q.1 m)) op.children =
              List.zipWith (fun q g => (groupBindings q m g, true)) ps op.children := by
            rw [List.zipWith_map_left]
            rw [show (fun (q : {x // x ∈ ps}) (g : GroupID) => groupRun q.1 m g fuel) =
              (fun (q : {x // x ∈ ps}) (g : GroupID) =>
                (fun (q2 : Pattern) (g2 : GroupID) => groupRun q2 m g2 fuel) q.1 g) from rfl]
            rw [zipWith_attach (fun q2 g2 => groupRun q2 m g2 fuel) ps op.children]
            exact zipWith_congr_mem _ _ ps op.children (fun q hq g hg =>
              hNc q hq fuel hfNc g (WF_children_lt hwf hgid hmem hg))
          rw [hcr]
          have hmapfst : (List.zipWith (fun q g => (groupBindings q m g, true)) ps op.children).map
              Prod.fst = List.zipWith (fun q g => groupBindings q m g) ps op.children := by
            rw [List.map_zipWith]
          have hflen : (prodAll ((List.zipWith (fun q g => (groupBindings q m g, true)) ps
              op.children).map Prod.fst)).length + 1 ≤ fuel := by
            rw [hmapfst]
            have hle : (prodAll (List.zipWith (fun q g => groupBindings q m g)
                ps op.children)).length + 1 ≤
                (((m.items gid).map (fun op2 => (prodAll (List.zipWith
                  (fun q g => groupBindings q m g) ps op2.children)).length + 1)).foldr max 0) :=
              le_foldr_max _ _ (List.mem_map_of_mem
                (fun op2 : Operator => (prodAll (List.zipWith (fun q g => groupBindings q m g)
                  ps op2.children)).length + 1) hmem)
            omega
          by_cases hcase : op.opType = t ∧ op.children.length = ps.length
          · obtain ⟨hty, har⟩ := hcase
            have hex : (List.zipWith (fun q g => (groupBindings q m g, true)) ps
                op.children).any (fun r => !r.2) = false := by
              rw [List.any_eq_false]
              intro r hr
              obtain ⟨q, _, g, _, rfl⟩ := mem_zipWith _ _ _ r hr
              simp
            obtain ⟨h1, h2⟩ := itemIterRun_spec op t
              (ps.attach.map (fun q => groupRun q.1 m)).length
              (List.zipWith (fun q g => (groupBindings q m g, true)) ps op.children)
              fuel hty (by rw [hlenCF]; exact har) hex hflen
            by_cases hne : ∀ r ∈ List.zipWith (fun q g => (groupBindings q m g, true)) ps
                op.children, r.1 ≠ []
            · rw [h1 hne, hmapfst]
              simp only [if_pos (And.intro hty har)]
            · rw [Classical.not_forall] at hne
              obtain ⟨r, hr⟩ := hne
              rw [Classical.not_imp, Classical.not_not] at hr
              rw [h2 ⟨r, hr.1, hr.2⟩]
              have hempty : ([] : List OpPlanNode) ∈
                  List.zipWith (fun q g => groupBindings q m g) ps op.children := by
                rw [← hmapfst]
                rw [← hr.2]
                exact List.mem_map_of_mem Prod.fst hr.1
              simp only [if_pos (And.intro hty har)]
              rw [prodAll_of_empty_component _ hempty]
              rfl
          · simp only [if_neg hcase]
            unfold itemIterRun
            by_cases hty : op.opType = t
            · have har : op.children.length ≠ ps.length := fun h => hcase ⟨hty, h⟩
              rw [if_neg (by simp [hty]), if_pos (by rw [hlenCF]; exact har)]
            · rw [if_pos hty]
        rw [groupItemsRun_flatten m gid t _ fuel (fun op : Operator =>
          if op.opType = t ∧ op.children.length = ps.length then
            (prodAll (List.zipWith (fun q g => groupBindings q m g) ps op.children)).map
              (fun cs => OpPlanNode.node op cs)
          else []) hitem ((m.items gid).length) 0 (by omega)]
        rw [List.drop_zero, groupBindings_nonleaf m t ps gid ht]

/-- Bridging the componentwise-membership view of a product tuple with the
componentwise-`Matches` view, given the membership characterization for
every child pattern. -/
theorem forall2_mem_zipWith_iff (m : Memo) :
    ∀ (ps : List Pattern) (cgs : List GroupID) (cs : List OpPlanNode),
    (∀ q ∈ ps, ∀ (g : GroupID) (c : OpPlanNode),
      c ∈ groupBindings q m g ↔ Matches m q g c) →
    (List.Forall₂ (fun c l => c ∈ l) cs
        (List.zipWith (fun q g => groupBindings q m g) ps cgs) ↔
     List.Forall₂ (fun (qg : Pattern × GroupID) c => Matches m qg.1 qg.2 c)
        (ps.zip cgs) cs) := by
  intro ps
  induction ps with
  | nil =>
    intro cgs cs _
    simp
  | cons q ps ih =>
    intro cgs cs hq
    cases cgs with
    | nil => simp
    | cons g cgs =>
      cases cs with
      | nil =>
        simp only [List.zipWith_cons_cons, List.zip_cons_cons]
        constructor
        · intro h; cases h
        · intro h; cases h
      | cons c cs =>
        simp only [List.zipWith_cons_cons, List.zip_cons_cons]
        constructor
        · intro h
          cases h with
          | cons h1 h2 =>
            exact List.Forall₂.cons ((hq q (List.mem_cons_self _ _) g c).mp h1)
              ((ih cgs cs (fun q2 hq2 => hq q2 (List.mem_cons_of_mem _ hq2))).mp h2)
        · intro h
          cases h with
          | cons h1 h2 =>
            exact List.Forall₂.cons ((hq q (List.mem_cons_self _ _) g c).mpr h1)
              ((ih cgs cs (fun q2 hq2 => hq q2 (List.mem_cons_of_mem _ hq2))).mpr h2)

/-- The reference enumeration contains exactly the plan trees matching the
pattern rooted at the group (size-bounded recursion over the pattern). -/
theorem mem_groupBindings_iff_aux (m : Memo) :
    ∀ (k : Nat) (p : Pattern), sizeOf p ≤ k → ∀ (gid : GroupID) (pl : OpPlanNode),
    pl ∈ groupBindings p m gid ↔ Matches m p gid pl := by
  intro k
  induction k with
  | zero =>
    intro p hp
    cases p with
    | mk t ps =>
      simp only [Pattern.mk.sizeOf_spec] at hp
      omega
  | succ k ih =>
    intro p hp gid pl
    cases p with
    | mk t ps =>
      have hqs : ∀ q ∈ ps, ∀ (g : GroupID) (c : OpPlanNode),
          c ∈ groupBindings q m g ↔ Matches m q g c := by
        intro q hqmem g c
        have hsz : sizeOf q ≤ k := by
          have h1 := List.sizeOf_lt_of_mem hqmem
          simp only [Pattern.mk.sizeOf_spec] at hp
          omega
        exact ih q hsz g c
      by_cases ht : t = OpType.leaf
      · subst ht
        rw [groupBindings, if_pos rfl]
        constructor
        · intro h
          rw [List.mem_singleton] at h
          subst h
          exact Matches.leaf ps gid
        · intro h
          cases h with
          | leaf => exact List.mem_singleton.mpr rfl
          | node t2 ps2 gid2 op cs hne hop hty har hf2 => exact absurd rfl hne
      · rw [groupBindings_nonleaf m t ps gid ht]
        constructor
        · intro h
          rw [List.mem_flatMap] at h
          obtain ⟨op, hop, hpl⟩ := h
          by_cases hcase : op.opType = t ∧ op.children.length = ps.length
          · rw [if_pos hcase] at hpl
            rw [List.mem_map] at hpl
            obtain ⟨cs, hcs, rfl⟩ := hpl
            rw [prodAll_mem] at hcs
            exact Matches.node t ps gid op cs ht hop hcase.1 hcase.2
              ((forall2_mem_zipWith_iff m ps op.children cs hqs).mp hcs)
          · rw [if_neg hcase] at hpl
            exact absurd hpl (List.not_mem_nil _)
        · intro h
          cases h with
          | leaf => exact absurd rfl ht
          | node t2 ps2 gid2 op cs hne hop hty har hf2 =>
            rw [List.mem_flatMap]
            refine ⟨_, hop, ?_⟩
            rw [if_pos ⟨hty, har⟩, List.mem_map]
            exact ⟨_, (prodAll_mem _ _).mpr
              ((forall2_mem_zipWith_iff m ps _ _ hqs).mpr hf2), rfl⟩

/-- Over a well-formed memo the reference enumeration is duplicate-free
(size-bounded recursion over the pattern). -/
theorem groupBindings_nodup_aux (m : Memo) (hwf : m.WF) :
    ∀ (k : Nat) (p : Pattern), sizeOf p ≤ k → ∀ (gid : GroupID),
    gid < m.groups.length → (groupBindings p m gid).Nodup := by
  intro k
  induction k with
  | zero =>
    intro p hp
    cases p with
    | mk t ps =>
      simp only [Pattern.mk.sizeOf_spec] at hp
      omega
  | succ k ih =>
    intro p hp gid hgid
    cases p with
    | mk t ps =>
      by_cases ht : t = OpType.leaf
      · subst ht
        rw [groupBindings, if_pos rfl]
        exact List.nodup_singleton _
      · rw [groupBindings_nonleaf m t ps gid ht]
        rw [List.nodup_flatMap]
        constructor
        · intro op hop
          by_cases hcase : op.opType = t ∧ op.children.length = ps.length
          · rw [if_pos hcase]
            refine List.Nodup.map (fun a b hab => by injection hab) ?_
            refine prodAll_nodup _ ?_
            intro l hl
            obtain ⟨q, hq, g, hg, rfl⟩ := mem_zipWith _ _ _ l hl
            have hsz : sizeOf q ≤ k := by
              have h1 := List.sizeOf_lt_of_mem hq
              simp only [Pattern.mk.sizeOf_spec] at hp
              omega
            exact ih q hsz g (WF_children_lt hwf hgid hop hg)
          · rw [if_neg hcase]
            exact List.nodup_nil
        · refine List.Pairwise.imp ?_ (WF_items_nodup hwf gid)
          intro a b hab pl hpa hpb
          have hpa2 : pl ∈ (if a.opType = t ∧ a.children.length = ps.length then
              (prodAll (List.zipWith (fun q g => groupBindings q m g) ps a.children)).map
                (fun cs => OpPlanNode.node a cs) else []) := hpa
          have hpb2 : pl ∈ (if b.opType = t ∧ b.children.length = ps.length then
              (prodAll (List.zipWith (fun q g => groupBindings q m g) ps b.children)).map
                (fun cs => OpPlanNode.node b cs) else []) := hpb
          by_cases hca : a.opType = t ∧ a.children.length = ps.length
          · rw [if_pos hca] at hpa2
            obtain ⟨cs1, _, rfl⟩ := List.mem_map.mp hpa2
            by_cases hcb : b.opType = t ∧ b.children.length = ps.length
            · rw [if_pos hcb] at hpb2
              obtain ⟨cs2, _, he⟩ := List.mem_map.mp hpb2
              injection he with h1 _
              exact hab h1.symm
            · rw [if_neg hcb] at hpb2
              exact absurd hpb2 (List.not_mem_nil _)
          · rw [if_neg hca] at hpa2
            exact absurd hpa2 (List.not_mem_nil _)

/-- C2: over a memo whose groups are nonempty, duplicate-free and mention
only in-range child groups, running a `GroupBindingIterator` to exhaustion
(for every sufficiently large fuel) yields exactly the plan trees matching
the pattern rooted at an item of the group, each exactly once: the run
equals the reference enumeration, which is duplicate-free and whose members
are exactly the `Matches` trees.  (The well-formedness hypotheses are
needed: see the duplicate-items counterexample.) -/
theorem groupRun_enumerates_matches (m : Memo) (hwf : m.WF) (p : Pattern)
    (gid : GroupID) (hgid : gid < m.groups.length) :
    ∃ N, ∀ fuel, N ≤ fuel →
      groupRun p m gid fuel = (groupBindings p m gid, true) ∧
      (groupBindings p m gid).Nodup ∧
      ∀ pl, pl ∈ groupBindings p m gid ↔ Matches m p gid pl := by
  obtain ⟨N, hN⟩ := groupRun_eq_groupBindings m hwf (sizeOf p) p le_rfl gid hgid
  exact ⟨N, fun fuel hf => ⟨hN fuel hf,
    groupBindings_nodup_aux m hwf (sizeOf p) p le_rfl gid hgid,
    fun pl => mem_groupBindings_iff_aux m (sizeOf p) p le_rfl gid pl⟩⟩

/-- C2 witness: the S5-shaped memo is well-formed and its group 0 with the
`InnerJoin(Get, Get)` pattern satisfies the enumeration theorem. -/
theorem groupRun_enumerates_matches_witness :
    exMemoJoin.WF ∧ 0 < exMemoJoin.groups.length ∧
    ∃ N, ∀ fuel, N ≤ fuel →
      groupRun exPatJoin exMemoJoin 0 fuel = (groupBindings exPatJoin exMemoJoin 0, true) ∧
      (groupBindings exPatJoin exMemoJoin 0).Nodup ∧
      ∀ pl, pl ∈ groupBindings exPatJoin exMemoJoin 0 ↔ Matches exMemoJoin exPatJoin 0 pl :=
  ⟨by decide, by decide,
    groupRun_enumerates_matches exMemoJoin (by decide) exPatJoin 0 (by decide)⟩

/-- C2 counterexample: a group holding the *same* item twice (nothing in
binding.cpp or the group structure prevents this) makes the iterator yield
the same plan tree twice before exhausting — the unconditional claim's 'no
duplicates' fails, so the corrected statement assumes duplicate-free
groups. -/
theorem groupRun_duplicates_counterexample :
    groupRun (Pattern.mk OpType.get []) exMemoDup 0 5 =
      ([OpPlanNode.node (.logicalGet 5) [], OpPlanNode.node (.logicalGet 5) []], true) ∧
    ¬ ([OpPlanNode.node (.logicalGet 5) [], OpPlanNode.node (.logicalGet 5) []] :
        List OpPlanNode).Nodup := by
  constructor
  · rw [groupRun]
    rw [if_neg (by decide : ¬(OpType.get = OpType.leaf))]
    rw [groupItemsRun]
    rw [groupItemsRun]
    rw [groupItemsRun]
    rfl
  · simp

end Optimizer

end Peloton
